import Mathlib

/-!
Verification of the QueryScribe AI self-correction loop, SQL executor,
schema chunker, schema RAG index and SQL safety validator, as a shallow
embedding of the Python sources in src/agents/self_correction.py,
src/db/schema_rag.py and src/db/validator.py.

Conventions of the embedding:
* Python classes become Lean structures; optional fields become Option.
* The opaque LLM capabilities (initial generation, correction) and the
  per-attempt execution outcome are passed in as function parameters, as
  the spec's determinism note requires for testing the loop logic.
* Wall-clock latencies are rational numbers supplied by the environment.
* Logging statements are not modelled; they do not affect the data flow.
-/

namespace QueryScribe

/-- Embeds class SQLExecutionResult of src/agents/self_correction.py
(success flag, query text, optional error message, optional row count,
optional execution time in milliseconds). The timestamp field is wall
clock metadata and is not modelled. -/
structure SQLExecutionResult where
  success : Bool
  sql_query : String
  error_message : Option String
  row_count : Option Nat
  execution_time_ms : Option ℚ
deriving DecidableEq, Repr

/-- Embeds class CorrectionAttempt of src/agents/self_correction.py
(attempt number, query text, optional error message, success flag).
The timestamp field is wall clock metadata and is not modelled. -/
structure CorrectionAttempt where
  attempt_number : Nat
  sql_query : String
  error_message : Option String
  success : Bool
deriving DecidableEq, Repr

/-- One iteration step of the for-loop of
SelfCorrectingAgent.generate_with_correction (self_correction.py lines
318-359), with the execution capability `ex` (attempt number and current
SQL to its execution outcome) and the correction capability `corr`
(history so far, failed query, its error message, next attempt number to
the corrected SQL) substituted, as the spec's determinism note demands.
The fuel argument counts the loop iterations still allowed; it starts at
max_attempts so that the range(1, max_attempts+1) iteration space is
never exceeded. -/
def correctionLoopAux (maxA : Nat) (ex : Nat → String → SQLExecutionResult)
    (corr : List CorrectionAttempt → String → Option String → Nat → String) :
    Nat → Nat → String → List CorrectionAttempt →
    String × Bool × List CorrectionAttempt
  | 0, _, current, history => (current, false, history)
  | fuel + 1, attempt, current, history =>
    let result := ex attempt current
    let record : CorrectionAttempt :=
      ⟨attempt, current, result.error_message, result.success⟩
    let history' := history ++ [record]
    if result.success then
      (current, true, history')
    else if attempt < maxA then
      correctionLoopAux maxA ex corr fuel (attempt + 1)
        (corr history' current result.error_message (attempt + 1)) history'
    else
      (current, false, history')

/-- Embeds SelfCorrectingAgent.generate_with_correction
(self_correction.py lines 288-362): reset the history, generate the
initial candidate `init` (the opaque generate_initial_sql output), then
run the bounded correction loop starting at attempt 1. Returns the tuple
(final_sql_query, success, correction_history). -/
def generate_with_correction (maxA : Nat)
    (ex : Nat → String → SQLExecutionResult)
    (corr : List CorrectionAttempt → String → Option String → Nat → String)
    (init : String) : String × Bool × List CorrectionAttempt :=
  correctionLoopAux maxA ex corr maxA 1 init []

/-- A scripted failing execution outcome, standing in for an engine error
such as an undefined column, used to instantiate the loop theorems. -/
def failRes (q : String) : SQLExecutionResult :=
  ⟨false, q, some "column ag does not exist", none, some 1⟩

/-- A scripted successful execution outcome with three fetched rows. -/
def okRes (q : String) : SQLExecutionResult :=
  ⟨true, q, none, some 3, some 1⟩

/-- A scripted execution capability that succeeds exactly on attempt `k`
and fails on every other attempt. -/
def scriptSuccessAt (k : Nat) : Nat → String → SQLExecutionResult :=
  fun j s => if j = k then okRes s else failRes s

/-- A scripted execution capability on which every attempt fails. -/
def scriptAllFail : Nat → String → SQLExecutionResult :=
  fun _ s => failRes s

/-- A scripted correction capability producing a fresh candidate per
attempt number. -/
def scriptCorrect : List CorrectionAttempt → String → Option String → Nat → String :=
  fun _ _ _ n => "SELECT fixed_" ++ toString n

/-- A raised Python exception as seen by the two except clauses of
SelfCorrectingAgent.execute_sql: whether it is a SQLAlchemyError, its
optional wrapped driver-level message (the `orig` attribute), and its
own string rendering. -/
structure PyError where
  isSQLAlchemyError : Bool
  orig : Option String
  msg : String
deriving DecidableEq, Repr

/-- The message text execute_sql reports for a caught exception
(self_correction.py lines 198-220): for a SQLAlchemyError the wrapped
driver message when present, otherwise the rendering of the exception
itself. -/
def errMsgOf (e : PyError) : String :=
  if e.isSQLAlchemyError then e.orig.getD e.msg else e.msg

/-- The slice of src/core/config.py Settings that execute_sql reads. -/
structure SettingsModel where
  database_url : Option String
deriving DecidableEq, Repr

/-- The guard of execute_sql (self_correction.py line 159): Python
`not settings.database_url` is true for None and for the empty string,
and the placeholder value also counts as unconfigured. -/
def noDbConfigured (stg : SettingsModel) : Bool :=
  match stg.database_url with
  | none => true
  | some s => s == "" || s == "your_database_url_here"

/-- The regex word-character class \w over ASCII: letters, digits and
underscore, identified by code point. -/
def isWordChar (c : Char) : Bool :=
  (65 ≤ c.toNat && c.toNat ≤ 90) || (97 ≤ c.toNat && c.toNat ≤ 122) ||
  (48 ≤ c.toNat && c.toNat ≤ 57) || c.toNat == 95

/-- The regex whitespace class \s over ASCII (space, tab, newline,
carriage return, vertical tab, form feed), also used for str.strip. -/
def isSpaceChar (c : Char) : Bool :=
  c.toNat == 32 || c.toNat == 9 || c.toNat == 10 || c.toNat == 13 ||
  c.toNat == 11 || c.toNat == 12

/-- The regex digit class \d: ASCII decimal digits. -/
def isDigitChar (c : Char) : Bool :=
  48 ≤ c.toNat && c.toNat ≤ 57

/-- Python str.strip on a character list: drop whitespace from both
ends. -/
def pyStripL (l : List Char) : List Char :=
  ((l.dropWhile isSpaceChar).reverse.dropWhile isSpaceChar).reverse

/-- The check sql_query.strip().upper().startswith('SELECT') of
self_correction.py line 180. -/
def sqlIsSelect (q : String) : Bool :=
  List.isPrefixOf "SELECT".toList ((pyStripL q.toList).map Char.toUpper)

/-- How the body of a `with connection.begin()` block can end: a normal
exit (recording whether transaction.rollback() was called inside the
block) or a raised exception. -/
inductive TxOutcome (DB α : Type) where
  | normal (explicitRollback : Bool) (db : DB) (value : α)
  | raised (err : PyError) (db : DB)

/-- SQLAlchemy `with connection.begin()` semantics: on normal exit the
transaction commits unless it was already rolled back inside the block;
on an exception the context manager rolls back and re-raises. Returns
the database state after the block together with the block's value or
the propagated exception. -/
def beginTransaction {DB α : Type} (db : DB) (body : DB → TxOutcome DB α) :
    DB × Except PyError α :=
  match body db with
  | .normal rb db' a => (if rb then db else db', Except.ok a)
  | .raised e _ => (db, Except.error e)

/-- Embeds SelfCorrectingAgent.execute_sql (self_correction.py lines
149-220). The engine's statement semantics is the parameter `runStmt`
(query and database state to either a new state plus the fetchable row
count, or a raised exception); `elapsed` is the wall-clock latency of
the attempt in milliseconds. Returns the database state after the call
together with the SQLExecutionResult. The code executes the statement
inside a transaction, counts rows only for SELECT queries, always calls
transaction.rollback() before returning, and catches every exception
into a failed result. -/
def execute_sql {DB : Type} (stg : SettingsModel)
    (runStmt : String → DB → Except PyError (DB × Nat))
    (elapsed : ℚ) (db : DB) (q : String) : DB × SQLExecutionResult :=
  if noDbConfigured stg then
    (db, ⟨false, q, some "No database configured for SQL execution", none, none⟩)
  else
    let txr := beginTransaction db (fun d =>
      match runStmt q d with
      | .ok (d', n) =>
        TxOutcome.normal true d' (if sqlIsSelect q then some n else none)
      | .error e => TxOutcome.raised e d)
    match txr.2 with
    | .ok rc => (txr.1, ⟨true, q, none, rc, some elapsed⟩)
    | .error e => (txr.1, ⟨false, q, some (errMsgOf e), none, some elapsed⟩)

/-- Settings with no database URL configured. -/
def noDbSettings : SettingsModel := ⟨none⟩

/-- A trivial engine semantics over a unit database state. -/
def demoRun : String → Unit → Except PyError (Unit × Nat) :=
  fun _ _ => Except.ok ((), 0)

/-- An engine semantics that always raises a SQLAlchemyError wrapping a
driver-level syntax error message. -/
def demoRaise : String → Unit → Except PyError (Unit × Nat) :=
  fun _ _ => Except.error ⟨true, some "syntax error at or near SELEC", "(psycopg2.errors.SyntaxError)"⟩

/-- The execution capability obtained by running execute_sql with no
database configured, as the correction loop would call it. -/
def noDbExec : Nat → String → SQLExecutionResult :=
  fun _ s => (execute_sql noDbSettings demoRun 0 () s).2

/-- Case-insensitive literal matching of a regex pattern fragment
against the front of the input, returning the unmatched remainder. -/
def matchCI : List Char → List Char → Option (List Char)
  | [], s => some s
  | _ :: _, [] => none
  | p :: ps, c :: cs => if p.toLower == c.toLower then matchCI ps cs else none

/-- A regex word boundary \b holds after a word character only when the
following character is absent or not a word character. -/
def boundaryOk (rest : List Char) : Bool :=
  match rest with
  | [] => true
  | c :: _ => !(isWordChar c)

/-- One pattern of validator.py DANGEROUS_PATTERNS: a leading keyword,
an optional second keyword separated by \s+, and the raw regex text used
in the reported message. -/
structure DangerousPattern where
  word1 : String
  word2 : Option String
  raw : String
deriving DecidableEq, Repr

/-- Embeds DANGEROUS_PATTERNS of src/db/validator.py lines 19-29. -/
def DANGEROUS_PATTERNS : List DangerousPattern :=
  [⟨"DROP", some "TABLE", "\\bDROP\\s+TABLE\\b"⟩,
   ⟨"DELETE", some "FROM", "\\bDELETE\\s+FROM\\b"⟩,
   ⟨"TRUNCATE", some "TABLE", "\\bTRUNCATE\\s+TABLE\\b"⟩,
   ⟨"INSERT", some "INTO", "\\bINSERT\\s+INTO\\b"⟩,
   ⟨"UPDATE", some "SET", "\\bUPDATE\\s+SET\\b"⟩,
   ⟨"ALTER", some "TABLE", "\\bALTER\\s+TABLE\\b"⟩,
   ⟨"CREATE", some "TABLE", "\\bCREATE\\s+TABLE\\b"⟩,
   ⟨"GRANT", none, "\\bGRANT\\b"⟩,
   ⟨"REVOKE", none, "\\bREVOKE\\b"⟩]

/-- Attempts to match one dangerous pattern at the current position:
the first keyword case-insensitively, then (when the pattern has two
keywords) at least one whitespace character and the second keyword, and
finally the trailing word boundary. The leading word boundary is
checked by the caller. -/
def matchPatHere (w1 : List Char) (w2 : Option (List Char)) (s : List Char) : Bool :=
  match matchCI w1 s with
  | none => false
  | some r1 =>
    match w2 with
    | none => boundaryOk r1
    | some w =>
      if (r1.takeWhile isSpaceChar).isEmpty then false
      else
        match matchCI w (r1.dropWhile isSpaceChar) with
        | none => false
        | some r2 => boundaryOk r2

/-- re.search over the input: try the pattern at every position whose
left context satisfies the leading word boundary, scanning left to
right. `prevWord` records whether the previous character was a word
character. -/
def searchPat (w1 : List Char) (w2 : Option (List Char)) :
    Bool → List Char → Bool
  | _, [] => false
  | prevWord, c :: cs =>
    ((!prevWord) && matchPatHere w1 w2 (c :: cs)) ||
      searchPat w1 w2 (isWordChar c) cs

/-- Whether a dangerous pattern occurs anywhere in the text. -/
def patternFound (p : DangerousPattern) (s : List Char) : Bool :=
  searchPat p.word1.toList (p.word2.map String.toList) false s

/-- Python str.upper over ASCII. -/
def pyUpperStr (s : String) : String :=
  String.mk (s.toList.map Char.toUpper)

/-- Embeds is_safe_query of src/db/validator.py lines 57-73: upper-case
the query, scan the dangerous patterns in order with re.search under
re.IGNORECASE, and report the first match; otherwise the query passes
the safety check. -/
def is_safe_query (sql_query : String) : Bool × String :=
  let query_upper := pyUpperStr sql_query
  match DANGEROUS_PATTERNS.find? (fun p => patternFound p query_upper.toList) with
  | some p => (false, "Query contains potentially dangerous operation: " ++ p.raw)
  | none => (true, "Query passed safety check")

/-- The literal part of the table regex of schema_rag.py line 63:
CREATE TABLE with a single space, matched case-insensitively. -/
def createTablePat : List Char := "CREATE TABLE".toList

/-- The non-greedy (.*?)\); tail of the table regex under re.DOTALL:
split the input at the first occurrence of the two-character sequence
close-parenthesis semicolon, returning the text before it and the text
after it. -/
def findClose : List Char → Option (List Char × List Char)
  | [] => none
  | c :: cs =>
    if c == ')' && cs.head? == some ';' then some ([], cs.tail)
    else
      match findClose cs with
      | some (b, r) => some (c :: b, r)
      | none => none

/-- One attempted match of the table regex
CREATE TABLE\s+(\w+)\s*\((.*?)\); at the current position
(schema_rag.py lines 63-64): the literal keyword case-insensitively, at
least one whitespace, the table name as a maximal word-character run,
optional whitespace, an opening parenthesis, and the shortest body ended
by close-parenthesis semicolon. Returns (name, body, remaining input)
or none when the position does not start a match. The opening
parenthesis and body part is split into tryMatchBody. -/
def tryMatchBody (name r3 : List Char) :
    Option (List Char × List Char × List Char) :=
  match r3 with
  | '(' :: r4 =>
    match findClose r4 with
    | some (body, rest) => some (name, body, rest)
    | none => none
  | _ => none

/-- The full attempted match of the table regex at the current
position: the literal keyword case-insensitively, at least one
whitespace, the table name as a maximal word run, optional whitespace,
then the parenthesized body via tryMatchBody. -/
def tryMatch (s : List Char) : Option (List Char × List Char × List Char) :=
  match matchCI createTablePat s with
  | none => none
  | some r1 =>
    if (r1.takeWhile isSpaceChar).isEmpty then none
    else
      if ((r1.dropWhile isSpaceChar).takeWhile isWordChar).isEmpty then none
      else
        tryMatchBody ((r1.dropWhile isSpaceChar).takeWhile isWordChar)
          (((r1.dropWhile isSpaceChar).dropWhile isWordChar).dropWhile isSpaceChar)

/-- re.findall over the schema text: attempt a match at every position
from left to right, emitting matches without overlap and resuming after
each match. The fuel argument bounds the recursion; every step consumes
at least one character, so an initial fuel of the input length is
enough. -/
def scanTablesF : Nat → List Char → List (List Char × List Char)
  | 0, _ => []
  | _ + 1, [] => []
  | n + 1, c :: cs =>
    match tryMatch (c :: cs) with
    | some (name, body, rest) => (name, body) :: scanTablesF n rest
    | none => scanTablesF n cs

/-- All table matches of the schema text, in source order. -/
def scanTables (s : List Char) : List (List Char × List Char) :=
  scanTablesF s.length s

/-- Python str.split(',') on a character list: split at every comma. -/
def splitOnComma : List Char → List (List Char)
  | [] => [[]]
  | c :: rest =>
    if c == ',' then [] :: splitOnComma rest
    else
      match splitOnComma rest with
      | [] => [[c]]
      | l :: ls => (c :: l) :: ls

/-- One attempted match of the column regex
(\w+)\s+(\w+(?:\(\d+\))?)(.*) of schema_rag.py line 73 at the start of
a column fragment: the optional parenthesized digit run after the type
word, returning the full captured type text and the input left for the
constraints group. -/
def colMatchType (tyW r3 : List Char) : List Char × List Char :=
  match r3 with
  | '(' :: t =>
    if !(t.takeWhile isDigitChar).isEmpty &&
        (t.dropWhile isDigitChar).head? == some ')' then
      (tyW ++ '(' :: (t.takeWhile isDigitChar ++ [')']),
        (t.dropWhile isDigitChar).tail)
    else (tyW, r3)
  | _ => (tyW, r3)

/-- The full attempted match of the column regex at the start of a
column fragment: the column name as a maximal word run, at least one
whitespace, the type as a maximal word run with its optional size
argument via colMatchType, and the rest of the line (up to a newline,
since re.DOTALL is not set here) as the trailing constraints. -/
def colMatch (l : List Char) : Option (List Char × List Char × List Char) :=
  if (l.takeWhile isWordChar).isEmpty then none
  else
    if ((l.dropWhile isWordChar).takeWhile isSpaceChar).isEmpty then none
    else
      if (((l.dropWhile isWordChar).dropWhile isSpaceChar).takeWhile isWordChar).isEmpty
        then none
      else
        some (l.takeWhile isWordChar,
          (colMatchType
            (((l.dropWhile isWordChar).dropWhile isSpaceChar).takeWhile isWordChar)
            (((l.dropWhile isWordChar).dropWhile isSpaceChar).dropWhile isWordChar)).1,
          ((colMatchType
            (((l.dropWhile isWordChar).dropWhile isSpaceChar).takeWhile isWordChar)
            (((l.dropWhile isWordChar).dropWhile isSpaceChar).dropWhile isWordChar)).2).takeWhile
            (fun c => c != '\n'))

/-- One parsed column record of parse_schema_to_chunks: its name, its
type text, and its trailing constraints after str.strip. -/
structure ColumnInfo where
  name : String
  type : String
  constraints : String
deriving DecidableEq, Repr

/-- The per-fragment step of the column loop (schema_rag.py lines
71-80): re-strip the fragment, run the column regex, and on a match
build the column record with stripped constraints. -/
def colInfoOfFragment (line : List Char) : Option ColumnInfo :=
  (colMatch (pyStripL line)).map (fun m =>
    ⟨String.mk m.1, String.mk m.2.1, String.mk (pyStripL m.2.2)⟩)

/-- The column loop of parse_schema_to_chunks (schema_rag.py lines
66-80): split the body on commas, strip each fragment, keep the
fragments the column regex matches, and strip the captured
constraints. -/
def parseColumnsOfBody (body : List Char) : List ColumnInfo :=
  ((splitOnComma body).map pyStripL).filterMap colInfoOfFragment

/-- The page_content text built for a table chunk (schema_rag.py lines
83-92). -/
def pageContent (table_name : String) (cols : List ColumnInfo) : String :=
  "Table: " ++ table_name ++ "\n" ++
  "Columns: " ++ String.intercalate ", " (cols.map (fun c => c.name)) ++ "\n" ++
  "Column details:\n" ++
  String.join (cols.map (fun c =>
    "  - " ++ c.name ++ " (" ++ c.type ++ ")" ++
    (if c.constraints ≠ "" then " " ++ c.constraints else "") ++ "\n"))

/-- One Document produced by parse_schema_to_chunks: the embedded page
content plus the metadata fields table_name, column_count, columns and
full_definition (schema_rag.py lines 82-105). -/
structure SchemaDocument where
  page_content : String
  table_name : String
  column_count : Nat
  columns : List String
  full_definition : String
deriving DecidableEq, Repr

/-- Builds the Document for one matched table. -/
def mkDocument (table_name columns_def : List Char) : SchemaDocument :=
  let cols := parseColumnsOfBody columns_def
  { page_content := pageContent (String.mk table_name) cols
    table_name := String.mk table_name
    column_count := cols.length
    columns := cols.map (fun c => c.name)
    full_definition :=
      "CREATE TABLE " ++ String.mk table_name ++ " (" ++ String.mk columns_def ++ ");" }

/-- Embeds SchemaRAG.parse_schema_to_chunks (schema_rag.py lines
50-110): find every CREATE TABLE statement and build one Document per
table, in source order. -/
def parse_schema_to_chunks (schema_sql : String) : List SchemaDocument :=
  (scanTables schema_sql.toList).map (fun nb => mkDocument nb.1 nb.2)

/-- The mutable state of a SchemaRAG instance: the optional active
vector store (modelled as the list of indexed documents) and the
schema_loaded flag. -/
structure SchemaRAGState where
  vectorstore : Option (List SchemaDocument)
  schema_loaded : Bool
deriving DecidableEq, Repr

/-- A freshly constructed SchemaRAG (schema_rag.py lines 32-48): no
vector store, schema_loaded false. -/
def initialSchemaRAG : SchemaRAGState := ⟨none, false⟩

/-- Modelled from the vector-store library contract: building a store
from a document list yields a store whose queryable entries are exactly
those documents (one embedding per document, computed at index time). -/
def Chroma_from_documents (docs : List SchemaDocument) : List SchemaDocument :=
  docs

/-- Embeds SchemaRAG.index_schema (schema_rag.py lines 112-136): parse
the schema into chunks; when no table was found, return without touching
any state; otherwise replace the vector store with one built from the
new documents and set schema_loaded. -/
def index_schema (st : SchemaRAGState) (schema_sql : String) : SchemaRAGState :=
  let documents := parse_schema_to_chunks schema_sql
  if documents.isEmpty then st
  else ⟨some (Chroma_from_documents documents), true⟩

/-- Insertion into a list sorted by non-increasing score. -/
def insertDesc (p : SchemaDocument × ℚ) :
    List (SchemaDocument × ℚ) → List (SchemaDocument × ℚ)
  | [] => [p]
  | q :: qs => if q.2 ≤ p.2 then p :: q :: qs else q :: insertDesc p qs

/-- Insertion sort by non-increasing score. -/
def sortDesc : List (SchemaDocument × ℚ) → List (SchemaDocument × ℚ)
  | [] => []
  | p :: ps => insertDesc p (sortDesc ps)

/-- Modelled from the vector-store library contract:
similarity_search_with_score scores every stored document against the
question with the similarity function `score` and returns the k best
entries, ordered best first. -/
def similarity_search_with_score (score : String → SchemaDocument → ℚ)
    (store : List SchemaDocument) (question : String) (k : Nat) :
    List (SchemaDocument × ℚ) :=
  (sortDesc (store.map (fun d => (d, score question d)))).take k

/-- The retrieval core of SchemaRAG.retrieve_relevant_schema
(schema_rag.py lines 155-171): empty when nothing is indexed, otherwise
the top-k scored documents filtered by the score threshold. -/
def retrieve_relevant_docs (score : String → SchemaDocument → ℚ)
    (st : SchemaRAGState) (question : String) (top_k : Nat)
    (score_threshold : ℚ) : List (SchemaDocument × ℚ) :=
  match st.vectorstore with
  | none => []
  | some store =>
    if st.schema_loaded then
      (similarity_search_with_score score store question top_k).filter
        (fun p => decide (score_threshold ≤ p.2))
    else []

/-- Embeds SchemaRAG.retrieve_relevant_schema (schema_rag.py lines
138-194): the empty string when not indexed or when nothing clears the
threshold, otherwise the retained tables' full definitions joined by
blank lines. -/
def retrieve_relevant_schema (score : String → SchemaDocument → ℚ)
    (st : SchemaRAGState) (question : String) (top_k : Nat)
    (score_threshold : ℚ) : String :=
  if !st.schema_loaded || st.vectorstore.isNone then ""
  else
    let relevant := retrieve_relevant_docs score st question top_k score_threshold
    if relevant.isEmpty then ""
    else String.intercalate "\n\n" (relevant.map (fun p => p.1.full_definition))

/-- Embeds SchemaRAG.get_all_table_names (schema_rag.py lines 196-218):
the table_name metadata of every indexed document, empty when not
indexed. -/
def get_all_table_names (st : SchemaRAGState) : List String :=
  match st.vectorstore with
  | none => []
  | some store => if st.schema_loaded then store.map (fun d => d.table_name) else []

/-- Embeds SchemaRAG.clear_index (schema_rag.py lines 220-226): when a
vector store exists, delete it and reset schema_loaded. -/
def clear_index (st : SchemaRAGState) : SchemaRAGState :=
  match st.vectorstore with
  | none => st
  | some _ => ⟨none, false⟩

/-- Spec-side description of one column of a well-formed CREATE TABLE
statement, used to state the chunker round-trip claim: name, type word,
optional parenthesized size argument, trailing constraints text. -/
structure ColSpec where
  cname : List Char
  ctype : List Char
  targ : Option (List Char)
  ccons : List Char
deriving DecidableEq, Repr

/-- Spec-side description of one CREATE TABLE statement. -/
structure TableSpec where
  tname : List Char
  tcols : List ColSpec
deriving DecidableEq, Repr

/-- Well-formedness of a column: identifier-shaped name and type, a
nonempty all-digit size argument when present, and constraints text made
of word characters and single spaces, not starting or ending with a
space. -/
def WFColB (c : ColSpec) : Bool :=
  !c.cname.isEmpty && c.cname.all isWordChar &&
  (!c.ctype.isEmpty && c.ctype.all isWordChar) &&
  (match c.targ with
   | none => true
   | some ds => !ds.isEmpty && ds.all isDigitChar) &&
  c.ccons.all (fun ch => isWordChar ch || ch == ' ') &&
  (match c.ccons.head? with
   | none => true
   | some x => !(x == ' ')) &&
  (match c.ccons.getLast? with
   | none => true
   | some x => !(x == ' '))

/-- Well-formedness of a table: identifier-shaped name and well-formed
columns. -/
def WFTableB (t : TableSpec) : Bool :=
  !t.tname.isEmpty && t.tname.all isWordChar && t.tcols.all WFColB

/-- Renders a column's optional size argument. -/
def renderTypeArg : Option (List Char) → List Char
  | none => []
  | some ds => '(' :: (ds ++ [')'])

/-- Renders one column definition: name, a space, the type with its
optional size argument, and the constraints preceded by a space when
present. -/
def renderCol (c : ColSpec) : List Char :=
  c.cname ++ ' ' :: (c.ctype ++ renderTypeArg c.targ ++
    (if c.ccons.isEmpty then [] else ' ' :: c.ccons))

/-- Renders a comma-separated column list. -/
def renderBody : List ColSpec → List Char
  | [] => []
  | [c] => renderCol c
  | c :: cs => renderCol c ++ ',' :: renderBody cs

/-- Renders one CREATE TABLE statement in canonical well-formed DDL. -/
def renderTable (t : TableSpec) : List Char :=
  createTablePat ++ ' ' :: (t.tname ++ ' ' :: '(' :: (renderBody t.tcols ++ [')', ';']))

/-- Renders a schema: the statements in order, each followed by a
newline. -/
def renderSchema : List TableSpec → List Char
  | [] => []
  | t :: ts => renderTable t ++ '\n' :: renderSchema ts

/-- The ColumnInfo record the chunker is expected to produce for a
well-formed column. -/
def expectedCol (c : ColSpec) : ColumnInfo :=
  ⟨String.mk c.cname, String.mk (c.ctype ++ renderTypeArg c.targ), String.mk c.ccons⟩

/-- A SchemaRAG state holding one indexed generation with a single
table named users. -/
def usersIndexed : SchemaRAGState :=
  index_schema initialSchemaRAG "CREATE TABLE users (id INT);"

/-- A concrete two-table schema description used to instantiate the
chunker round-trip theorem. -/
def wsTables : List TableSpec :=
  [⟨"users".toList,
    [⟨"id".toList, "INT".toList, none, "PRIMARY KEY".toList⟩,
     ⟨"name".toList, "VARCHAR".toList, some ("100".toList), []⟩]⟩,
   ⟨"orders".toList, [⟨"id".toList, "INT".toList, none, []⟩]⟩]

/-- The loop appends at most `fuel` records to the history it carries. -/
lemma correctionLoopAux_length_le (maxA : Nat)
    (ex : Nat → String → SQLExecutionResult)
    (corr : List CorrectionAttempt → String → Option String → Nat → String) :
    ∀ fuel attempt current history,
      (correctionLoopAux maxA ex corr fuel attempt current history).2.2.length ≤
        history.length + fuel := by
  intro fuel
  induction fuel with
  | zero => intro attempt current history; simp [correctionLoopAux]
  | succ n ih =>
    intro attempt current history
    simp only [correctionLoopAux]
    split
    · simp
    · split
      · exact le_trans (ih _ _ _) (by simp; omega)
      · simp

/-- If every attempt from `attempt` up to max_attempts fails, the loop
runs to exhaustion: it returns success = false, a history extending the
carried one with exactly one failed record per remaining attempt, whose
last record carries the final candidate, and it appends only failed
records. -/
lemma correctionLoopAux_all_fail (maxA : Nat)
    (ex : Nat → String → SQLExecutionResult)
    (corr : List CorrectionAttempt → String → Option String → Nat → String)
    (hfail : ∀ j s, 1 ≤ j → j ≤ maxA → (ex j s).success = false) :
    ∀ fuel attempt current history,
      attempt + fuel = maxA + 1 → 1 ≤ attempt → attempt ≤ maxA →
      (correctionLoopAux maxA ex corr fuel attempt current history).2.1 = false ∧
      (correctionLoopAux maxA ex corr fuel attempt current history).2.2.length =
        history.length + fuel ∧
      (∀ r ∈ (correctionLoopAux maxA ex corr fuel attempt current history).2.2,
        r ∈ history ∨ r.success = false) ∧
      (∃ r, (correctionLoopAux maxA ex corr fuel attempt current history).2.2.getLast?
          = some r ∧
        r.sql_query = (correctionLoopAux maxA ex corr fuel attempt current history).1 ∧
        r.attempt_number = maxA) := by
  intro fuel
  induction fuel with
  | zero =>
    intro attempt current history hsum h1 ham
    omega
  | succ n ih =>
    intro attempt current history hsum h1 ham
    have hf : (ex attempt current).success = false := hfail attempt current h1 ham
    simp only [correctionLoopAux, hf, Bool.false_eq_true, if_false]
    by_cases hlt : attempt < maxA
    · rw [if_pos hlt]
      have h2 := ih (attempt + 1)
        (corr (history ++ [⟨attempt, current, (ex attempt current).error_message, false⟩])
          current (ex attempt current).error_message (attempt + 1))
        (history ++ [⟨attempt, current, (ex attempt current).error_message, false⟩])
        (by omega) (by omega) (by omega)
      refine ⟨h2.1, ?_, ?_, h2.2.2.2⟩
      · rw [h2.2.1]
        simp only [List.length_append, List.length_cons, List.length_nil]
        omega
      · intro r hr
        rcases h2.2.2.1 r hr with h | h
        · rcases List.mem_append.mp h with h | h
          · exact Or.inl h
          · simp only [List.mem_singleton] at h; subst h; exact Or.inr rfl
        · exact Or.inr h
    · have hEq : attempt = maxA := by omega
      rw [if_neg hlt]
      refine ⟨rfl, ?_, ?_, ?_⟩
      · simp only [List.length_append, List.length_cons, List.length_nil]
        omega
      · intro r hr
        rcases List.mem_append.mp hr with h | h
        · exact Or.inl h
        · simp only [List.mem_singleton] at h; subst h; exact Or.inr rfl
      · exact ⟨⟨attempt, current, (ex attempt current).error_message, false⟩,
          List.getLast?_concat _, rfl, hEq⟩

/-- If every attempt strictly before `k` fails and attempt `k` succeeds
(for whatever candidate it is given), the loop stops at attempt `k` with
success = true; the history extends the carried one by exactly the
attempts up to `k`, its last record is the succeeding attempt `k` and
carries the returned candidate, and every appended record before the
last one is a failure. -/
lemma correctionLoopAux_first_success (maxA k : Nat)
    (ex : Nat → String → SQLExecutionResult)
    (corr : List CorrectionAttempt → String → Option String → Nat → String)
    (hkN : k ≤ maxA)
    (hfail : ∀ j s, 1 ≤ j → j < k → (ex j s).success = false)
    (hsucc : ∀ s, (ex k s).success = true) :
    ∀ fuel attempt current history,
      attempt + fuel = maxA + 1 → 1 ≤ attempt → attempt ≤ k →
      (correctionLoopAux maxA ex corr fuel attempt current history).2.1 = true ∧
      (correctionLoopAux maxA ex corr fuel attempt current history).2.2.length =
        history.length + (k + 1 - attempt) ∧
      (∀ r ∈ (correctionLoopAux maxA ex corr fuel attempt current history).2.2.dropLast,
        r ∈ history ∨ r.success = false) ∧
      (∃ r, (correctionLoopAux maxA ex corr fuel attempt current history).2.2.getLast?
          = some r ∧
        r.success = true ∧
        r.sql_query = (correctionLoopAux maxA ex corr fuel attempt current history).1 ∧
        r.attempt_number = k) := by
  intro fuel
  induction fuel with
  | zero =>
    intro attempt current history hsum h1 hak
    omega
  | succ n ih =>
    intro attempt current history hsum h1 hak
    by_cases hk : attempt = k
    · subst hk
      have hs : (ex attempt current).success = true := hsucc current
      simp only [correctionLoopAux, hs, if_true]
      refine ⟨by simp, ?_, ?_, ?_⟩
      · simp only [List.length_append, List.length_cons, List.length_nil]
        omega
      · intro r hr
        rw [List.dropLast_concat] at hr
        exact Or.inl hr
      · exact ⟨⟨attempt, current, (ex attempt current).error_message, true⟩,
          List.getLast?_concat _, rfl, rfl, rfl⟩
    · have hltk : attempt < k := by omega
      have hf : (ex attempt current).success = false :=
        hfail attempt current h1 hltk
      have hlt : attempt < maxA := by omega
      simp only [correctionLoopAux, hf, Bool.false_eq_true, if_false]
      rw [if_pos hlt]
      have h2 := ih (attempt + 1)
        (corr (history ++ [⟨attempt, current, (ex attempt current).error_message, false⟩])
          current (ex attempt current).error_message (attempt + 1))
        (history ++ [⟨attempt, current, (ex attempt current).error_message, false⟩])
        (by omega) (by omega) (by omega)
      refine ⟨h2.1, ?_, ?_, h2.2.2.2⟩
      · rw [h2.2.1]
        simp only [List.length_append, List.length_cons, List.length_nil]
        omega
      · intro r hr
        rcases h2.2.2.1 r hr with h | h
        · rcases List.mem_append.mp h with h | h
          · exact Or.inl h
          · simp only [List.mem_singleton] at h; subst h; exact Or.inr rfl
        · exact Or.inr h

/-- Every record the loop appends is literally the outcome of some call
to the execution capability: its error message and success flag agree
with the capability's result on the recorded attempt and candidate. -/
lemma correctionLoopAux_record_shape (maxA : Nat)
    (ex : Nat → String → SQLExecutionResult)
    (corr : List CorrectionAttempt → String → Option String → Nat → String) :
    ∀ fuel attempt current history,
      ∀ r ∈ (correctionLoopAux maxA ex corr fuel attempt current history).2.2,
        r ∈ history ∨ ∃ j s, r.error_message = (ex j s).error_message ∧
          r.success = (ex j s).success := by
  intro fuel
  induction fuel with
  | zero =>
    intro attempt current history r hr
    exact Or.inl hr
  | succ n ih =>
    intro attempt current history r hr
    simp only [correctionLoopAux] at hr
    by_cases hs : (ex attempt current).success
    · rw [if_pos hs] at hr
      rcases List.mem_append.mp hr with h | h
      · exact Or.inl h
      · simp only [List.mem_singleton] at h; subst h
        exact Or.inr ⟨attempt, current, rfl, rfl⟩
    · simp only [Bool.not_eq_true] at hs
      rw [if_neg (by simp [hs])] at hr
      by_cases hlt : attempt < maxA
      · rw [if_pos hlt] at hr
        rcases ih _ _ _ r hr with h | h
        · rcases List.mem_append.mp h with h | h
          · exact Or.inl h
          · simp only [List.mem_singleton] at h; subst h
            exact Or.inr ⟨attempt, current, rfl, rfl⟩
        · exact Or.inr h
      · rw [if_neg hlt] at hr
        rcases List.mem_append.mp hr with h | h
        · exact Or.inl h
        · simp only [List.mem_singleton] at h; subst h
          exact Or.inr ⟨attempt, current, rfl, rfl⟩

/-- Membership in an insertion is membership in the inserted element or
the original list. -/
lemma mem_insertDesc (p x : SchemaDocument × ℚ) :
    ∀ l, x ∈ insertDesc p l ↔ x = p ∨ x ∈ l := by
  intro l
  induction l with
  | nil => simp [insertDesc]
  | cons q qs ih =>
    by_cases h : q.2 ≤ p.2
    · simp [insertDesc, h]
    · simp only [insertDesc, if_neg h, List.mem_cons, ih]
      tauto

/-- Insertion preserves sortedness by non-increasing score. -/
lemma pairwise_insertDesc (p : SchemaDocument × ℚ) :
    ∀ l, l.Pairwise (fun a b => b.2 ≤ a.2) →
      (insertDesc p l).Pairwise (fun a b => b.2 ≤ a.2) := by
  intro l
  induction l with
  | nil => intro _; simp [insertDesc]
  | cons q qs ih =>
    intro h
    rw [List.pairwise_cons] at h
    by_cases hle : q.2 ≤ p.2
    · rw [insertDesc, if_pos hle, List.pairwise_cons]
      refine ⟨?_, ?_⟩
      · intro x hx
        rcases List.mem_cons.mp hx with hx | hx
        · subst hx; exact hle
        · exact le_trans (h.1 x hx) hle
      · rw [List.pairwise_cons]
        exact h
    · rw [insertDesc, if_neg hle, List.pairwise_cons]
      refine ⟨?_, ih h.2⟩
      intro x hx
      rcases (mem_insertDesc p x qs).mp hx with hx | hx
      · subst hx; exact le_of_lt (lt_of_not_le hle)
      · exact h.1 x hx

/-- The insertion sort is sorted by non-increasing score. -/
lemma pairwise_sortDesc :
    ∀ l : List (SchemaDocument × ℚ),
      (sortDesc l).Pairwise (fun a b => b.2 ≤ a.2) := by
  intro l
  induction l with
  | nil => simp [sortDesc]
  | cons p ps ih => exact pairwise_insertDesc p _ ih

/-- A word character is not whitespace. -/
lemma word_not_space {c : Char} (h : isWordChar c = true) : isSpaceChar c = false := by
  simp only [isWordChar, Bool.or_eq_true, Bool.and_eq_true, decide_eq_true_eq,
    beq_iff_eq] at h
  simp only [isSpaceChar, Bool.or_eq_false_iff, beq_eq_false_iff_ne, ne_eq]
  omega

/-- A digit character is a word character. -/
lemma digit_is_word {c : Char} (h : isDigitChar c = true) : isWordChar c = true := by
  simp only [isDigitChar, Bool.and_eq_true, decide_eq_true_eq] at h
  simp only [isWordChar, Bool.or_eq_true, Bool.and_eq_true, decide_eq_true_eq,
    beq_iff_eq]
  omega

/-- A word character is none of the punctuation characters the chunker
treats specially. -/
lemma word_char_ne {c : Char} (h : isWordChar c = true) :
    c ≠ ',' ∧ c ≠ '(' ∧ c ≠ ')' ∧ c ≠ ';' ∧ c ≠ '\n' ∧ c ≠ ' ' := by
  refine ⟨?_, ?_, ?_, ?_, ?_, ?_⟩ <;>
    exact fun he => absurd (he ▸ h) (by decide)

/-- A nonempty list with a false isEmpty flag. -/
lemma ne_nil_of_not_isEmpty {α : Type} {l : List α} (h : (!l.isEmpty) = true) :
    l ≠ [] := by
  cases l with
  | nil => simp at h
  | cons a l => simp

/-- takeWhile over a satisfied prefix followed by a failing head takes
exactly the prefix. -/
lemma takeWhile_append_all {f : Char → Bool} :
    ∀ (w r : List Char), (∀ c ∈ w, f c = true) →
      (∀ x, r.head? = some x → f x = false) →
      (w ++ r).takeWhile f = w := by
  intro w
  induction w with
  | nil =>
    intro r _ hr
    cases r with
    | nil => rfl
    | cons x xs => simp [List.takeWhile_cons, hr x rfl]
  | cons c w ih =>
    intro r hw hr
    have hc : f c = true := hw c (List.mem_cons_self c w)
    simp [List.takeWhile_cons, hc,
      ih r (fun x hx => hw x (List.mem_cons_of_mem c hx)) hr]

/-- dropWhile over a satisfied prefix followed by a failing head drops
exactly the prefix. -/
lemma dropWhile_append_all {f : Char → Bool} :
    ∀ (w r : List Char), (∀ c ∈ w, f c = true) →
      (∀ x, r.head? = some x → f x = false) →
      (w ++ r).dropWhile f = r := by
  intro w
  induction w with
  | nil =>
    intro r _ hr
    cases r with
    | nil => rfl
    | cons x xs => simp [List.dropWhile_cons, hr x rfl]
  | cons c w ih =>
    intro r hw hr
    have hc : f c = true := hw c (List.mem_cons_self c w)
    simp [List.dropWhile_cons, hc,
      ih r (fun x hx => hw x (List.mem_cons_of_mem c hx)) hr]

/-- dropWhile is the identity when the head does not satisfy the
predicate. -/
lemma dropWhile_eq_self_head {f : Char → Bool} (l : List Char)
    (h : ∀ x, l.head? = some x → f x = false) : l.dropWhile f = l := by
  cases l with
  | nil => rfl
  | cons x xs => simp [List.dropWhile_cons, h x rfl]

/-- takeWhile is the identity when every element satisfies the
predicate. -/
lemma takeWhile_eq_self_all {f : Char → Bool} :
    ∀ l : List Char, (∀ x ∈ l, f x = true) → l.takeWhile f = l := by
  intro l
  induction l with
  | nil => intro _; rfl
  | cons x xs ih =>
    intro h
    simp [List.takeWhile_cons, h x (List.mem_cons_self x xs),
      ih (fun y hy => h y (List.mem_cons_of_mem x hy))]

/-- str.strip is the identity when neither end is whitespace. -/
lemma pyStripL_eq_self (l : List Char)
    (h1 : ∀ x, l.head? = some x → isSpaceChar x = false)
    (h2 : ∀ x, l.getLast? = some x → isSpaceChar x = false) :
    pyStripL l = l := by
  unfold pyStripL
  rw [dropWhile_eq_self_head l h1]
  rw [dropWhile_eq_self_head l.reverse
    (fun x hx => h2 x (by rwa [List.head?_reverse] at hx))]
  exact List.reverse_reverse l

/-- str.strip swallows a single leading space. -/
lemma pyStripL_space_cons (l : List Char) : pyStripL (' ' :: l) = pyStripL l := rfl

/-- Matching a pattern against itself followed by anything succeeds and
returns the remainder. -/
lemma matchCI_self_append : ∀ p r : List Char, matchCI p (p ++ r) = some r := by
  intro p
  induction p with
  | nil => intro r; rfl
  | cons c cs ih => intro r; simp [matchCI, ih]

/-- matchCI consumes exactly the pattern's length. -/
lemma matchCI_length : ∀ p s r : List Char,
    matchCI p s = some r → r.length + p.length = s.length := by
  intro p
  induction p with
  | nil =>
    intro s r h
    simp only [matchCI, Option.some_inj] at h
    subst h; simp
  | cons c cs ih =>
    intro s r h
    cases s with
    | nil => simp [matchCI] at h
    | cons x xs =>
      simp only [matchCI] at h
      split at h
      · have := ih xs r h
        simp only [List.length_cons]
        omega
      · cases h

/-- Splitting at the first close-parenthesis-semicolon: when the body
contains no semicolon, the split happens exactly at the appended
terminator. -/
lemma findClose_append : ∀ (body rest : List Char), ';' ∉ body →
    findClose (body ++ ')' :: ';' :: rest) = some (body, rest) := by
  intro body
  induction body with
  | nil =>
    intro rest _
    simp [findClose]
  | cons x xs ih =>
    intro rest h
    have hxs : ';' ∉ xs := fun he => h (List.mem_cons_of_mem _ he)
    show findClose (x :: (xs ++ ')' :: ';' :: rest)) = some (x :: xs, rest)
    have hcond : (x == ')' && (xs ++ ')' :: ';' :: rest).head? == some ';') = false := by
      cases xs with
      | nil => simp
      | cons y ys =>
        have hy : y ≠ ';' := fun he => hxs (he ▸ List.mem_cons_self y ys)
        simp [hy]
    unfold findClose
    rw [if_neg (by rw [hcond]; simp), ih rest hxs]

/-- findClose consumes the body plus the two terminator characters. -/
lemma findClose_length : ∀ (l b r : List Char),
    findClose l = some (b, r) → b.length + 2 + r.length = l.length := by
  intro l
  induction l with
  | nil => intro b r h; cases h
  | cons c cs ih =>
    intro b r h
    unfold findClose at h
    split at h
    · rename_i hcond
      simp only [Option.some_inj, Prod.mk.injEq] at h
      obtain ⟨hb, hr⟩ := h
      subst hb; subst hr
      simp only [Bool.and_eq_true, beq_iff_eq] at hcond
      cases cs with
      | nil => simp at hcond
      | cons y ys =>
        simp only [List.head?_cons, Option.some_inj] at hcond
        simp only [List.tail_cons, List.length_cons, List.length_nil]
        omega
    · cases hfc : findClose cs with
      | none => rw [hfc] at h; cases h
      | some p =>
        obtain ⟨b', r'⟩ := p
        rw [hfc] at h
        simp only [Option.some_inj, Prod.mk.injEq] at h
        obtain ⟨hb, hr⟩ := h
        subst hb; subst hr
        have := ih b' r' hfc
        simp only [List.length_cons]
        omega

/-- Dropping a prefix never lengthens a list. -/
lemma length_dropWhile_le (f : Char → Bool) :
    ∀ l : List Char, (l.dropWhile f).length ≤ l.length := by
  intro l
  induction l with
  | nil => simp
  | cons x xs ih =>
    rw [List.dropWhile_cons]
    split
    · exact le_trans ih (by simp)
    · simp

/-- A successful body match consumes at least the terminator beyond the
returned remainder. -/
lemma tryMatchBody_length {name r3 nm b r : List Char}
    (h : tryMatchBody name r3 = some (nm, b, r)) : r.length < r3.length := by
  unfold tryMatchBody at h
  split at h
  · rename_i r4
    cases hfc : findClose r4 with
    | none => rw [hfc] at h; cases h
    | some p =>
      obtain ⟨body, rest⟩ := p
      rw [hfc] at h
      simp only [Option.some_inj, Prod.mk.injEq] at h
      obtain ⟨_, _, hr⟩ := h
      subst hr
      have h2 := findClose_length r4 body rest hfc
      simp only [List.length_cons]
      omega
  · cases h

/-- A successful table match consumes at least one character. -/
lemma tryMatch_length {s nm b r : List Char}
    (h : tryMatch s = some (nm, b, r)) : r.length < s.length := by
  unfold tryMatch at h
  cases hm : matchCI createTablePat s with
  | none => simp only [hm] at h; cases h
  | some r1 =>
    simp only [hm] at h
    have h1 : r1.length + 12 = s.length := matchCI_length createTablePat s r1 hm
    by_cases c1 : ((r1.takeWhile isSpaceChar).isEmpty = true)
    · rw [if_pos c1] at h; cases h
    · rw [if_neg c1] at h
      by_cases c2 : (((r1.dropWhile isSpaceChar).takeWhile isWordChar).isEmpty = true)
      · rw [if_pos c2] at h; cases h
      · rw [if_neg c2] at h
        have h2 := tryMatchBody_length h
        have h4 : (((r1.dropWhile isSpaceChar).dropWhile isWordChar).dropWhile isSpaceChar).length ≤
            ((r1.dropWhile isSpaceChar).dropWhile isWordChar).length :=
          length_dropWhile_le _ _
        have h5 : ((r1.dropWhile isSpaceChar).dropWhile isWordChar).length ≤
            (r1.dropWhile isSpaceChar).length := length_dropWhile_le _ _
        have h6 : (r1.dropWhile isSpaceChar).length ≤ r1.length :=
          length_dropWhile_le _ _
        omega

/-- Out of fuel or input, the scan yields nothing. -/
lemma scanTablesF_nil : ∀ n, scanTablesF n [] = [] := by
  intro n; cases n <;> rfl

/-- Unfolds one successful scan step. -/
lemma scanTablesF_step_some (n : Nat) {s nm b r : List Char}
    (h : tryMatch s = some (nm, b, r)) (hs : s ≠ []) :
    scanTablesF (n + 1) s = (nm, b) :: scanTablesF n r := by
  cases s with
  | nil => exact absurd rfl hs
  | cons c cs => simp [scanTablesF, h]

/-- Unfolds one failing scan step. -/
lemma scanTablesF_step_none (n : Nat) (s : List Char)
    (h : tryMatch s = none) :
    scanTablesF (n + 1) s = scanTablesF n s.tail := by
  cases s with
  | nil => rw [List.tail_nil, scanTablesF_nil, scanTablesF_nil]
  | cons c cs => simp [scanTablesF, h]

/-- The scan result does not depend on the fuel once the fuel covers the
input length. -/
lemma scanTablesF_congr : ∀ (n m : Nat) (s : List Char),
    s.length ≤ n → s.length ≤ m → scanTablesF n s = scanTablesF m s := by
  intro n
  induction n with
  | zero =>
    intro m s hn _
    have : s = [] := List.length_eq_zero.mp (Nat.le_zero.mp hn)
    subst this
    rw [scanTablesF_nil, scanTablesF_nil]
  | succ n ih =>
    intro m s hn hm
    cases s with
    | nil => rw [scanTablesF_nil, scanTablesF_nil]
    | cons c cs =>
      cases m with
      | zero => simp at hm
      | succ m' =>
        cases ht : tryMatch (c :: cs) with
        | some p =>
          obtain ⟨nm, b, r⟩ := p
          have hlen : r.length < cs.length + 1 := tryMatch_length ht
          rw [scanTablesF_step_some n ht (by simp),
            scanTablesF_step_some m' ht (by simp)]
          have hrn : r.length ≤ n := by simp at hn; omega
          have hrm : r.length ≤ m' := by simp at hm; omega
          rw [ih m' r hrn hrm]
        | none =>
          rw [scanTablesF_step_none n _ ht, scanTablesF_step_none m' _ ht]
          simp only [List.tail_cons]
          exact ih m' cs (by simp at hn; omega) (by simp at hm; omega)

/-- Unpacks the Boolean column well-formedness predicate. -/
lemma WFColB_spec {c : ColSpec} (h : WFColB c = true) :
    c.cname ≠ [] ∧ (∀ ch ∈ c.cname, isWordChar ch = true) ∧
    c.ctype ≠ [] ∧ (∀ ch ∈ c.ctype, isWordChar ch = true) ∧
    (∀ ds, c.targ = some ds → ds ≠ [] ∧ ∀ ch ∈ ds, isDigitChar ch = true) ∧
    (∀ ch ∈ c.ccons, isWordChar ch = true ∨ ch = ' ') ∧
    (∀ x, c.ccons.head? = some x → x ≠ ' ') ∧
    (∀ x, c.ccons.getLast? = some x → x ≠ ' ') := by
  unfold WFColB at h
  simp only [Bool.and_eq_true] at h
  obtain ⟨⟨⟨⟨⟨⟨hA, hB⟩, hC⟩, hY⟩, hZ⟩, hH⟩, hL⟩ := h
  obtain ⟨hC1, hC2⟩ := hC
  refine ⟨ne_nil_of_not_isEmpty hA, List.all_eq_true.mp hB,
    ne_nil_of_not_isEmpty hC1, List.all_eq_true.mp hC2, ?_, ?_, ?_, ?_⟩
  · intro ds hds
    rw [hds] at hY
    simp only [Bool.and_eq_true] at hY
    exact ⟨ne_nil_of_not_isEmpty hY.1, List.all_eq_true.mp hY.2⟩
  · intro ch hch
    have := List.all_eq_true.mp hZ ch hch
    simpa using this
  · intro x hx
    rw [hx] at hH
    simpa using hH
  · intro x hx
    rw [hx] at hL
    simpa using hL

/-- Unpacks the Boolean table well-formedness predicate. -/
lemma WFTableB_spec {t : TableSpec} (h : WFTableB t = true) :
    t.tname ≠ [] ∧ (∀ ch ∈ t.tname, isWordChar ch = true) ∧
    (∀ c ∈ t.tcols, WFColB c = true) := by
  unfold WFTableB at h
  simp only [Bool.and_eq_true] at h
  obtain ⟨⟨hA, hB⟩, hC⟩ := h
  exact ⟨ne_nil_of_not_isEmpty hA, List.all_eq_true.mp hB, List.all_eq_true.mp hC⟩

/-- Every character of a rendered column is a word character, a space
or a parenthesis. -/
lemma renderCol_chars {c : ColSpec} (h : WFColB c = true) :
    ∀ ch ∈ renderCol c, isWordChar ch = true ∨ ch = ' ' ∨ ch = '(' ∨ ch = ')' := by
  obtain ⟨_, hname, _, htype, htarg, hcons, _, _⟩ := WFColB_spec h
  intro ch hch
  unfold renderCol at hch
  rcases List.mem_append.mp hch with h1 | h1
  · exact Or.inl (hname ch h1)
  · rcases List.mem_cons.mp h1 with h2 | h2
    · exact Or.inr (Or.inl h2)
    · rcases List.mem_append.mp h2 with h3 | h3
      · rcases List.mem_append.mp h3 with h4 | h4
        · exact Or.inl (htype ch h4)
        · cases htg : c.targ with
          | none => rw [htg] at h4; simp [renderTypeArg] at h4
          | some ds =>
            rw [htg] at h4
            simp only [renderTypeArg, List.mem_cons, List.mem_append,
              List.mem_singleton] at h4
            rcases h4 with h5 | h5 | h5 | h5
            · exact Or.inr (Or.inr (Or.inl h5))
            · exact Or.inl (digit_is_word ((htarg ds htg).2 ch h5))
            · exact Or.inr (Or.inr (Or.inr h5))
            · simp at h5
      · by_cases hc : (c.ccons.isEmpty = true)
        · rw [if_pos hc] at h3; simp at h3
        · rw [if_neg hc] at h3
          rcases List.mem_cons.mp h3 with h5 | h5
          · exact Or.inr (Or.inl h5)
          · rcases hcons ch h5 with h6 | h6
            · exact Or.inl h6
            · exact Or.inr (Or.inl h6)

/-- Every character of a rendered body is a word character, a space, a
parenthesis or a comma. -/
lemma renderBody_chars : ∀ (cols : List ColSpec),
    (∀ c ∈ cols, WFColB c = true) →
    ∀ ch ∈ renderBody cols,
      isWordChar ch = true ∨ ch = ' ' ∨ ch = '(' ∨ ch = ')' ∨ ch = ',' := by
  intro cols
  induction cols with
  | nil => intro _ ch hch; simp [renderBody] at hch
  | cons c cs ih =>
    intro h ch hch
    cases cs with
    | nil =>
      rcases renderCol_chars (h c (List.mem_cons_self _ _)) ch hch with
        h1 | h1 | h1 | h1
      · exact Or.inl h1
      · exact Or.inr (Or.inl h1)
      · exact Or.inr (Or.inr (Or.inl h1))
      · exact Or.inr (Or.inr (Or.inr (Or.inl h1)))
    | cons c2 cs2 =>
      rw [show renderBody (c :: c2 :: cs2) =
        renderCol c ++ ',' :: renderBody (c2 :: cs2) from rfl] at hch
      rcases List.mem_append.mp hch with h1 | h1
      · rcases renderCol_chars (h c (List.mem_cons_self _ _)) ch h1 with
          h2 | h2 | h2 | h2
        · exact Or.inl h2
        · exact Or.inr (Or.inl h2)
        · exact Or.inr (Or.inr (Or.inl h2))
        · exact Or.inr (Or.inr (Or.inr (Or.inl h2)))
      · rcases List.mem_cons.mp h1 with h2 | h2
        · exact Or.inr (Or.inr (Or.inr (Or.inr h2)))
        · exact ih (fun c' hc' => h c' (List.mem_cons_of_mem _ hc')) ch h2

/-- A rendered body contains no semicolon. -/
lemma semi_not_in_renderBody {cols : List ColSpec}
    (h : ∀ c ∈ cols, WFColB c = true) : ';' ∉ renderBody cols := by
  intro hmem
  rcases renderBody_chars cols h ';' hmem with h1 | h1 | h1 | h1 | h1 <;>
    exact absurd h1 (by decide)

/-- Unfolds tryMatch once the keyword has been matched. -/
lemma tryMatch_eq_of_matchCI {s r1 : List Char}
    (hm : matchCI createTablePat s = some r1) :
    tryMatch s =
      (if (r1.takeWhile isSpaceChar).isEmpty then none
       else if ((r1.dropWhile isSpaceChar).takeWhile isWordChar).isEmpty then none
       else tryMatchBody ((r1.dropWhile isSpaceChar).takeWhile isWordChar)
         (((r1.dropWhile isSpaceChar).dropWhile isWordChar).dropWhile isSpaceChar)) := by
  unfold tryMatch
  rw [hm]

/-- The table regex does not match at a position whose character is not
a C. -/
lemma tryMatch_not_c {c : Char} (cs : List Char)
    (h : c.toLower ≠ 'c') : tryMatch (c :: cs) = none := by
  unfold tryMatch
  have hm : matchCI createTablePat (c :: cs) = none := by
    rw [show createTablePat = 'C' :: "REATE TABLE".toList from rfl]
    unfold matchCI
    have hb : ('C'.toLower == c.toLower) = false := by
      rw [Bool.eq_false_iff]
      intro hc
      exact h (eq_of_beq hc).symm
    rw [hb]
    simp
  rw [hm]

/-- The table regex matches exactly the rendered statement at the start
of a well-formed rendering followed by anything. -/
lemma tryMatch_render {t : TableSpec} (h : WFTableB t = true) (r : List Char) :
    tryMatch (renderTable t ++ r) = some (t.tname, renderBody t.tcols, r) := by
  obtain ⟨hne, hword, hcols⟩ := WFTableB_spec h
  have hsemi : ';' ∉ renderBody t.tcols := semi_not_in_renderBody hcols
  obtain ⟨h0, tl, htn⟩ : ∃ h0 tl, t.tname = h0 :: tl := by
    cases htn : t.tname with
    | nil => exact absurd htn hne
    | cons a l => exact ⟨a, l, rfl⟩
  have hh0 : isWordChar h0 = true :=
    hword h0 (by rw [htn]; exact List.mem_cons_self _ _)
  have hshape : renderTable t ++ r = createTablePat ++
      (' ' :: (t.tname ++ (' ' :: '(' ::
        (renderBody t.tcols ++ ')' :: ';' :: r)))) := by
    unfold renderTable
    simp [List.append_assoc]
  rw [hshape, tryMatch_eq_of_matchCI (matchCI_self_append createTablePat _)]
  have hhead : ∀ x, (t.tname ++ (' ' :: '(' ::
      (renderBody t.tcols ++ ')' :: ';' :: r))).head? = some x →
      isSpaceChar x = false := by
    intro x hx
    rw [htn] at hx
    simp only [List.cons_append, List.head?_cons, Option.some_inj] at hx
    subst hx
    exact word_not_space hh0
  have h1 : (' ' :: (t.tname ++ (' ' :: '(' ::
      (renderBody t.tcols ++ ')' :: ';' :: r)))).takeWhile isSpaceChar = [' '] :=
    takeWhile_append_all [' '] _ (by intro x hx; simp at hx; subst hx; decide) hhead
  have h2 : (' ' :: (t.tname ++ (' ' :: '(' ::
      (renderBody t.tcols ++ ')' :: ';' :: r)))).dropWhile isSpaceChar =
      t.tname ++ (' ' :: '(' :: (renderBody t.tcols ++ ')' :: ';' :: r)) :=
    dropWhile_append_all [' '] _ (by intro x hx; simp at hx; subst hx; decide) hhead
  rw [h1]
  rw [if_neg (by decide)]
  rw [h2]
  have h3 : (t.tname ++ (' ' :: '(' ::
      (renderBody t.tcols ++ ')' :: ';' :: r))).takeWhile isWordChar = t.tname :=
    takeWhile_append_all _ _ hword
      (by intro x hx; simp only [List.head?_cons, Option.some_inj] at hx; subst hx; decide)
  have h4 : (t.tname ++ (' ' :: '(' ::
      (renderBody t.tcols ++ ')' :: ';' :: r))).dropWhile isWordChar =
      ' ' :: '(' :: (renderBody t.tcols ++ ')' :: ';' :: r) :=
    dropWhile_append_all _ _ hword
      (by intro x hx; simp only [List.head?_cons, Option.some_inj] at hx; subst hx; decide)
  rw [h3]
  rw [if_neg (by rw [htn]; simp)]
  rw [h4]
  rw [show (' ' :: '(' :: (renderBody t.tcols ++ ')' :: ';' :: r)).dropWhile isSpaceChar
    = '(' :: (renderBody t.tcols ++ ')' :: ';' :: r) from rfl]
  show (match findClose (renderBody t.tcols ++ ')' :: ';' :: r) with
    | some (body, rest) => some (t.tname, body, rest)
    | none => none) = some (t.tname, renderBody t.tcols, r)
  rw [findClose_append _ _ hsemi]

/-- The scan over a newline position skips one character. -/
lemma scanTables_newline (l : List Char) :
    scanTables ('\n' :: l) = scanTables l := by
  show scanTablesF ('\n' :: l).length ('\n' :: l) = scanTablesF l.length l
  rw [show ('\n' :: l).length = l.length + 1 from rfl,
    scanTablesF_step_none _ _ (tryMatch_not_c l (by decide))]
  rfl

/-- The scan over a rendered statement followed by anything emits the
statement's match and continues on the remainder. -/
lemma scanTables_table {t : TableSpec} (h : WFTableB t = true) (r : List Char) :
    scanTables (renderTable t ++ r) =
      (t.tname, renderBody t.tcols) :: scanTables r := by
  have hm := tryMatch_render h r
  have hlen : 1 ≤ (renderTable t).length := by
    unfold renderTable
    simp [createTablePat]
  obtain ⟨m, hmx⟩ : ∃ m, (renderTable t ++ r).length = m + 1 := by
    refine ⟨(renderTable t ++ r).length - 1, ?_⟩
    simp only [List.length_append]
    omega
  show scanTablesF (renderTable t ++ r).length _ = _
  rw [hmx, scanTablesF_step_some m hm
    (by intro he; rw [he] at hmx; simp at hmx)]
  congr 1
  apply scanTablesF_congr
  · simp only [List.length_append] at hmx; omega
  · exact le_refl _

/-- The scan over a rendered schema yields exactly its statements'
names and bodies, in order. -/
lemma scanTables_renderSchema : ∀ ts : List TableSpec,
    (∀ t ∈ ts, WFTableB t = true) →
    scanTables (renderSchema ts) =
      ts.map (fun t => (t.tname, renderBody t.tcols)) := by
  intro ts
  induction ts with
  | nil => intro _; rfl
  | cons t ts ih =>
    intro h
    show scanTables (renderTable t ++ '\n' :: renderSchema ts) = _
    rw [scanTables_table (h t (List.mem_cons_self _ _)) _, scanTables_newline,
      ih (fun t' ht' => h t' (List.mem_cons_of_mem _ ht'))]
    rfl

/-- Splitting on commas distributes over an appended comma when the
prefix has none. -/
lemma splitOnComma_append : ∀ (a r : List Char), ',' ∉ a →
    splitOnComma (a ++ ',' :: r) = a :: splitOnComma r := by
  intro a
  induction a with
  | nil =>
    intro r _
    simp [splitOnComma]
  | cons x xs ih =>
    intro r h
    have hx : (x == ',') = false := by
      rw [Bool.eq_false_iff]
      intro hc
      exact h ((eq_of_beq hc) ▸ List.mem_cons_self x xs)
    show splitOnComma (x :: (xs ++ ',' :: r)) = (x :: xs) :: splitOnComma r
    conv_lhs => unfold splitOnComma
    rw [hx]
    simp only [Bool.false_eq_true, if_false]
    rw [ih r (fun hm => h (List.mem_cons_of_mem _ hm))]

/-- A comma-free list splits into itself. -/
lemma splitOnComma_no_comma : ∀ a : List Char, ',' ∉ a →
    splitOnComma a = [a] := by
  intro a
  induction a with
  | nil => intro _; rfl
  | cons x xs ih =>
    intro h
    have hx : (x == ',') = false := by
      rw [Bool.eq_false_iff]
      intro hc
      exact h ((eq_of_beq hc) ▸ List.mem_cons_self x xs)
    show splitOnComma (x :: xs) = [x :: xs]
    conv_lhs => unfold splitOnComma
    rw [hx]
    simp only [Bool.false_eq_true, if_false]
    rw [ih (fun hm => h (List.mem_cons_of_mem _ hm))]

/-- A rendered column contains no comma. -/
lemma comma_not_in_renderCol {c : ColSpec} (h : WFColB c = true) :
    ',' ∉ renderCol c := by
  intro hm
  rcases renderCol_chars h ',' hm with h1 | h1 | h1 | h1 <;>
    exact absurd h1 (by decide)

/-- Splitting a rendered body on commas recovers the rendered
columns. -/
lemma splitOnComma_renderBody : ∀ cols : List ColSpec, cols ≠ [] →
    (∀ c ∈ cols, WFColB c = true) →
    splitOnComma (renderBody cols) = cols.map renderCol := by
  intro cols
  induction cols with
  | nil => intro h _; exact absurd rfl h
  | cons c cs ih =>
    intro _ h
    cases cs with
    | nil =>
      show splitOnComma (renderCol c) = [renderCol c]
      exact splitOnComma_no_comma _
        (comma_not_in_renderCol (h c (List.mem_cons_self _ _)))
    | cons c2 cs2 =>
      show splitOnComma (renderCol c ++ ',' :: renderBody (c2 :: cs2)) = _
      rw [splitOnComma_append _ _
          (comma_not_in_renderCol (h c (List.mem_cons_self _ _))),
        ih (by simp) (fun x hx => h x (List.mem_cons_of_mem _ hx))]
      rfl

/-- A character that is a word character or a space but not a space is
not whitespace. -/
lemma not_space_of_word_or_space {x : Char}
    (h1 : isWordChar x = true ∨ x = ' ') (h2 : x ≠ ' ') :
    isSpaceChar x = false := by
  rcases h1 with h1 | h1
  · exact word_not_space h1
  · exact absurd h1 h2

/-- The first character of a rendered column is its name's first
character, a word character, so not whitespace. -/
lemma renderCol_head_not_space {c : ColSpec} (h : WFColB c = true) :
    ∀ x, (renderCol c).head? = some x → isSpaceChar x = false := by
  obtain ⟨hne, hname, _, _, _, _, _, _⟩ := WFColB_spec h
  intro x hx
  cases hcn : c.cname with
  | nil => exact absurd hcn hne
  | cons a l =>
    unfold renderCol at hx
    rw [hcn] at hx
    simp only [List.cons_append, List.head?_cons, Option.some_inj] at hx
    rw [← hx]
    exact word_not_space (hname a (by rw [hcn]; exact List.mem_cons_self _ _))

/-- An element named by getLast? belongs to the list. -/
lemma mem_of_getLast?_eq {α : Type} {l : List α} {x : α}
    (h : l.getLast? = some x) : x ∈ l := by
  rcases List.mem_getLast?_eq_getLast (Option.mem_def.mpr h) with ⟨hne, hx⟩
  rw [hx]
  exact List.getLast_mem hne

/-- The last character of a rendered column is not whitespace: the
constraints' last character, the closing parenthesis of the size
argument, or the type's last character. -/
lemma renderCol_getLast_not_space {c : ColSpec} (h : WFColB c = true) :
    ∀ x, (renderCol c).getLast? = some x → isSpaceChar x = false := by
  obtain ⟨_, _, htyne, htype, _, hcons, _, hlast⟩ := WFColB_spec h
  intro x hx
  unfold renderCol at hx
  rw [List.getLast?_append_of_ne_nil _ (by simp)] at hx
  by_cases hcc : (c.ccons.isEmpty = true)
  · have hccnil : c.ccons = [] := by simpa using hcc
    rw [if_pos hcc] at hx
    rw [List.append_nil] at hx
    cases htg : c.targ with
    | none =>
      rw [htg] at hx
      simp only [renderTypeArg, List.append_nil] at hx
      rw [show (' ' :: c.ctype) = [' '] ++ c.ctype from rfl] at hx
      rw [List.getLast?_append_of_ne_nil _ htyne] at hx
      exact word_not_space (htype x (mem_of_getLast?_eq hx))
    | some ds =>
      rw [htg] at hx
      simp only [renderTypeArg] at hx
      rw [show (' ' :: (c.ctype ++ '(' :: (ds ++ [')']))) =
        ([' '] ++ c.ctype ++ ['(' ] ++ ds) ++ [')'] from by simp] at hx
      rw [List.getLast?_append_of_ne_nil _ (by simp)] at hx
      simp only [List.getLast?_singleton, Option.some_inj] at hx
      subst hx
      decide
  · rw [if_neg hcc] at hx
    have hccne : c.ccons ≠ [] := by
      intro he
      rw [he] at hcc
      exact hcc rfl
    rw [show (' ' :: (c.ctype ++ renderTypeArg c.targ ++ ' ' :: c.ccons)) =
      ([' '] ++ c.ctype ++ renderTypeArg c.targ ++ [' ']) ++ c.ccons from by simp] at hx
    rw [List.getLast?_append_of_ne_nil _ hccne] at hx
    exact not_space_of_word_or_space (hcons x (mem_of_getLast?_eq hx))
      (hlast x hx)

/-- An element named by head? belongs to the list. -/
lemma mem_of_head?_eq {α : Type} {l : List α} {x : α}
    (h : l.head? = some x) : x ∈ l := by
  cases l with
  | nil => cases h
  | cons a as =>
    simp only [List.head?_cons, Option.some_inj] at h
    rw [← h]
    exact List.mem_cons_self _ _

/-- The optional size-argument group takes a parenthesized all-digit
run followed by a closing parenthesis. -/
lemma colMatchType_paren {tyW ds rest : List Char} (hds : ds ≠ [])
    (hall : ∀ ch ∈ ds, isDigitChar ch = true) :
    colMatchType tyW ('(' :: (ds ++ ')' :: rest)) =
      (tyW ++ '(' :: (ds ++ [')']), rest) := by
  have h1 : (ds ++ ')' :: rest).takeWhile isDigitChar = ds :=
    takeWhile_append_all _ _ hall
      (by intro x hx; simp only [List.head?_cons, Option.some_inj] at hx
          rw [← hx]; decide)
  have h2 : (ds ++ ')' :: rest).dropWhile isDigitChar = ')' :: rest :=
    dropWhile_append_all _ _ hall
      (by intro x hx; simp only [List.head?_cons, Option.some_inj] at hx
          rw [← hx]; decide)
  have hstep : colMatchType tyW ('(' :: (ds ++ ')' :: rest)) =
      (if !((ds ++ ')' :: rest).takeWhile isDigitChar).isEmpty &&
          ((ds ++ ')' :: rest).dropWhile isDigitChar).head? == some ')' then
        (tyW ++ '(' :: ((ds ++ ')' :: rest).takeWhile isDigitChar ++ [')']),
          ((ds ++ ')' :: rest).dropWhile isDigitChar).tail)
      else (tyW, '(' :: (ds ++ ')' :: rest))) := rfl
  rw [hstep, h1, h2]
  rw [if_pos]
  · rfl
  · cases ds with
    | nil => exact absurd rfl hds
    | cons d ds' => simp

/-- The constraints part of a rendered column survives the
up-to-newline capture unchanged. -/
lemma takeToNewline_consPart {c : ColSpec} (h : WFColB c = true) :
    (if c.ccons.isEmpty then [] else ' ' :: c.ccons).takeWhile
      (fun x => x != '\n') =
    (if c.ccons.isEmpty then [] else ' ' :: c.ccons) := by
  obtain ⟨_, _, _, _, _, hcons, _, _⟩ := WFColB_spec h
  by_cases hcc : (c.ccons.isEmpty = true)
  · rw [if_pos hcc]; rfl
  · rw [if_neg hcc]
    apply takeWhile_eq_self_all
    intro x hx
    rcases List.mem_cons.mp hx with h1 | h1
    · rw [h1]; decide
    · rcases hcons x h1 with h2 | h2
      · exact bne_iff_ne.mpr (word_char_ne h2).2.2.2.2.1
      · rw [h2]; decide

/-- The column regex matches a rendered well-formed column and captures
its name, its full type text, and its raw constraints group. -/
lemma colMatch_render {c : ColSpec} (h : WFColB c = true) :
    colMatch (renderCol c) = some (c.cname, c.ctype ++ renderTypeArg c.targ,
      if c.ccons.isEmpty then [] else ' ' :: c.ccons) := by
  obtain ⟨hne, hname, htyne, htype, htarg, hcons, _, _⟩ := WFColB_spec h
  obtain ⟨t0, ttl, hty⟩ : ∃ t0 ttl, c.ctype = t0 :: ttl := by
    cases hty : c.ctype with
    | nil => exact absurd hty htyne
    | cons a l => exact ⟨a, l, rfl⟩
  have ht0 : isWordChar t0 = true :=
    htype t0 (by rw [hty]; exact List.mem_cons_self _ _)
  have hshape : renderCol c = c.cname ++ ' ' :: (c.ctype ++
      (renderTypeArg c.targ ++ (if c.ccons.isEmpty then [] else ' ' :: c.ccons))) := by
    unfold renderCol
    simp [List.append_assoc]
  have hrest_head : ∀ x, (renderTypeArg c.targ ++
      (if c.ccons.isEmpty then [] else ' ' :: c.ccons)).head? = some x →
      isWordChar x = false := by
    intro x hx
    cases htg : c.targ with
    | some ds =>
      rw [htg] at hx
      simp only [renderTypeArg, List.cons_append, List.head?_cons,
        Option.some_inj] at hx
      rw [← hx]; decide
    | none =>
      rw [htg] at hx
      simp only [renderTypeArg, List.nil_append] at hx
      by_cases hcc : (c.ccons.isEmpty = true)
      · rw [if_pos hcc] at hx; cases hx
      · rw [if_neg hcc] at hx
        simp only [List.head?_cons, Option.some_inj] at hx
        rw [← hx]; decide
  have hty_head : ∀ x, (c.ctype ++ (renderTypeArg c.targ ++
      (if c.ccons.isEmpty then [] else ' ' :: c.ccons))).head? = some x →
      isSpaceChar x = false := by
    intro x hx
    rw [hty] at hx
    simp only [List.cons_append, List.head?_cons, Option.some_inj] at hx
    rw [← hx]
    exact word_not_space ht0
  have h1 : (renderCol c).takeWhile isWordChar = c.cname := by
    rw [hshape]
    exact takeWhile_append_all _ _ hname
      (by intro x hx; simp only [List.head?_cons, Option.some_inj] at hx
          rw [← hx]; decide)
  have h2 : (renderCol c).dropWhile isWordChar = ' ' :: (c.ctype ++
      (renderTypeArg c.targ ++ (if c.ccons.isEmpty then [] else ' ' :: c.ccons))) := by
    rw [hshape]
    exact dropWhile_append_all _ _ hname
      (by intro x hx; simp only [List.head?_cons, Option.some_inj] at hx
          rw [← hx]; decide)
  have h3 : ((renderCol c).dropWhile isWordChar).takeWhile isSpaceChar = [' '] := by
    rw [h2]
    exact takeWhile_append_all [' '] _
      (by intro x hx; simp at hx; rw [hx]; decide) hty_head
  have h4 : ((renderCol c).dropWhile isWordChar).dropWhile isSpaceChar =
      c.ctype ++ (renderTypeArg c.targ ++
        (if c.ccons.isEmpty then [] else ' ' :: c.ccons)) := by
    rw [h2]
    exact dropWhile_append_all [' '] _
      (by intro x hx; simp at hx; rw [hx]; decide) hty_head
  have h5 : (c.ctype ++ (renderTypeArg c.targ ++
      (if c.ccons.isEmpty then [] else ' ' :: c.ccons))).takeWhile isWordChar =
      c.ctype :=
    takeWhile_append_all _ _ htype hrest_head
  have h6 : (c.ctype ++ (renderTypeArg c.targ ++
      (if c.ccons.isEmpty then [] else ' ' :: c.ccons))).dropWhile isWordChar =
      renderTypeArg c.targ ++ (if c.ccons.isEmpty then [] else ' ' :: c.ccons) :=
    dropWhile_append_all _ _ htype hrest_head
  have h7 : colMatchType c.ctype (renderTypeArg c.targ ++
      (if c.ccons.isEmpty then [] else ' ' :: c.ccons)) =
      (c.ctype ++ renderTypeArg c.targ,
        if c.ccons.isEmpty then [] else ' ' :: c.ccons) := by
    cases htg : c.targ with
    | some ds =>
      obtain ⟨hds, hall⟩ := htarg ds htg
      have hshape2 : renderTypeArg (some ds) ++
          (if c.ccons.isEmpty then [] else ' ' :: c.ccons) =
          '(' :: (ds ++ ')' ::
            (if c.ccons.isEmpty then [] else ' ' :: c.ccons)) := by
        simp [renderTypeArg, List.append_assoc]
      rw [hshape2, colMatchType_paren hds hall]
      simp [renderTypeArg]
    | none =>
      simp only [renderTypeArg, List.nil_append, List.append_nil]
      by_cases hcc : (c.ccons.isEmpty = true)
      · rw [if_pos hcc]; rfl
      · rw [if_neg hcc]; rfl
  unfold colMatch
  rw [h1]
  rw [if_neg (by cases hcn : c.cname with
    | nil => exact absurd hcn hne
    | cons a l => simp)]
  rw [h3]
  rw [if_neg (by decide)]
  rw [h4, h5]
  rw [if_neg (by cases hcn : c.ctype with
    | nil => exact absurd hcn htyne
    | cons a l => simp)]
  rw [h6, h7]
  simp only [Option.some_inj, Prod.mk.injEq]
  exact ⟨trivial, trivial, takeToNewline_consPart h⟩

/-- str.strip leaves a rendered column unchanged. -/
lemma pyStripL_renderCol {c : ColSpec} (h : WFColB c = true) :
    pyStripL (renderCol c) = renderCol c :=
  pyStripL_eq_self _ (renderCol_head_not_space h) (renderCol_getLast_not_space h)

/-- Stripping the captured constraints group recovers the constraints
text. -/
lemma pyStripL_consPart {c : ColSpec} (h : WFColB c = true) :
    pyStripL (if c.ccons.isEmpty then [] else ' ' :: c.ccons) = c.ccons := by
  obtain ⟨_, _, _, _, _, hcons, hhd, hlast⟩ := WFColB_spec h
  by_cases hcc : (c.ccons.isEmpty = true)
  · rw [if_pos hcc]
    have hnil : c.ccons = [] := by simpa using hcc
    rw [hnil]
    rfl
  · rw [if_neg hcc, pyStripL_space_cons]
    exact pyStripL_eq_self _
      (fun x hx => not_space_of_word_or_space (hcons x (mem_of_head?_eq hx))
        (hhd x hx))
      (fun x hx => not_space_of_word_or_space (hcons x (mem_of_getLast?_eq hx))
        (hlast x hx))

/-- One fragment of a rendered body produces exactly the expected
column record. -/
lemma fragment_expectedCol {c : ColSpec} (h : WFColB c = true) :
    colInfoOfFragment (pyStripL (renderCol c)) = some (expectedCol c) := by
  unfold colInfoOfFragment
  rw [pyStripL_renderCol h, pyStripL_renderCol h, colMatch_render h]
  show some (⟨String.mk c.cname, String.mk (c.ctype ++ renderTypeArg c.targ),
    String.mk (pyStripL (if c.ccons.isEmpty then [] else ' ' :: c.ccons))⟩ :
      ColumnInfo) = some (expectedCol c)
  rw [pyStripL_consPart h]
  rfl

/-- The column loop over a rendered body yields the expected column
records in declaration order. -/
lemma parseColumnsOfBody_render : ∀ cols : List ColSpec,
    (∀ c ∈ cols, WFColB c = true) →
    parseColumnsOfBody (renderBody cols) = cols.map expectedCol := by
  intro cols h
  cases hc : cols with
  | nil => rfl
  | cons c0 cs0 =>
    subst hc
    unfold parseColumnsOfBody
    rw [splitOnComma_renderBody (c0 :: cs0) (by simp) h]
    have hgen : ∀ (l : List ColSpec), (∀ c ∈ l, WFColB c = true) →
        ((l.map renderCol).map pyStripL).filterMap colInfoOfFragment =
        l.map expectedCol := by
      intro l
      induction l with
      | nil => intro _; rfl
      | cons c cs ih =>
        intro hl
        simp only [List.map_cons]
        rw [List.filterMap_cons_some (fragment_expectedCol
          (hl c (List.mem_cons_self _ _))),
          ih (fun x hx => hl x (List.mem_cons_of_mem _ hx))]
    exact hgen (c0 :: cs0) h

/-- String concatenation concatenates the character lists. -/
lemma str_toList_append (a b : String) :
    (a ++ b).toList = a.toList ++ b.toList := by
  simp [String.toList, String.data_append]

/-- C1: for every max_attempts = N >= 1 and any substituted generation
and execution capabilities, one call to generate_with_correction records
at most N attempt records, and terminates at the first success: if
attempt k <= N is the first whose execution succeeds, no further
attempts occur, the history has exactly k records (every one before the
last a failure), and the call returns (current candidate, true, history)
with the last record carrying the returned candidate on attempt k. -/
theorem generate_with_correction_bounded_first_success
    (maxA k : Nat) (ex : Nat → String → SQLExecutionResult)
    (corr : List CorrectionAttempt → String → Option String → Nat → String)
    (init : String)
    (hmax : 1 ≤ maxA) (hk1 : 1 ≤ k) (hkN : k ≤ maxA)
    (hfail : ∀ j s, 1 ≤ j → j < k → (ex j s).success = false)
    (hsucc : ∀ s, (ex k s).success = true) :
    (∀ (ex' : Nat → String → SQLExecutionResult)
        (corr' : List CorrectionAttempt → String → Option String → Nat → String)
        (init' : String),
        (generate_with_correction maxA ex' corr' init').2.2.length ≤ maxA) ∧
    (generate_with_correction maxA ex corr init).2.1 = true ∧
    (generate_with_correction maxA ex corr init).2.2.length = k ∧
    (∀ r ∈ (generate_with_correction maxA ex corr init).2.2.dropLast,
      r.success = false) ∧
    (∃ r, (generate_with_correction maxA ex corr init).2.2.getLast? = some r ∧
      r.success = true ∧
      r.sql_query = (generate_with_correction maxA ex corr init).1 ∧
      r.attempt_number = k) := by
  have hmain := correctionLoopAux_first_success maxA k ex corr hkN hfail hsucc
    maxA 1 init [] (by omega) (by omega) hk1
  refine ⟨?_, hmain.1, ?_, ?_, hmain.2.2.2⟩
  · intro ex' corr' init'
    have := correctionLoopAux_length_le maxA ex' corr' maxA 1 init' []
    simpa [generate_with_correction] using this
  · have := hmain.2.1
    simpa [generate_with_correction] using this
  · intro r hr
    rcases hmain.2.2.1 r hr with h | h
    · simp at h
    · exact h

/-- Witness for C1: with max_attempts 3 and a scripted execution
capability succeeding exactly on attempt 2, the loop stops successfully
after exactly two recorded attempts. -/
theorem generate_with_correction_bounded_first_success_witness :
    (generate_with_correction 3 (scriptSuccessAt 2) scriptCorrect "SELECT a").2.1 = true ∧
    (generate_with_correction 3 (scriptSuccessAt 2) scriptCorrect "SELECT a").2.2.length = 2 := by
  have h := generate_with_correction_bounded_first_success 3 2 (scriptSuccessAt 2)
    scriptCorrect "SELECT a" (by decide) (by decide) (by decide)
    (fun j s h1 h2 => by
      have hj : j = 1 := by omega
      subst hj; rfl)
    (fun s => rfl)
  exact ⟨h.2.1, h.2.2.1⟩

/-- C2: if every one of the N = max_attempts attempts fails,
generate_with_correction returns (last_candidate, false, history) where
the history has exactly N records, all failed, and the last record
carries the returned candidate; moreover with max_attempts = 1 the loop
performs exactly one generate-execute cycle and its result does not
depend on the correction capability at all (it is never called). -/
theorem generate_with_correction_exhaustion
    (maxA : Nat) (ex : Nat → String → SQLExecutionResult)
    (corr : List CorrectionAttempt → String → Option String → Nat → String)
    (init : String)
    (hmax : 1 ≤ maxA)
    (hfail : ∀ j s, 1 ≤ j → j ≤ maxA → (ex j s).success = false) :
    (generate_with_correction maxA ex corr init).2.1 = false ∧
    (generate_with_correction maxA ex corr init).2.2.length = maxA ∧
    (∀ r ∈ (generate_with_correction maxA ex corr init).2.2, r.success = false) ∧
    (∃ r, (generate_with_correction maxA ex corr init).2.2.getLast? = some r ∧
      r.sql_query = (generate_with_correction maxA ex corr init).1 ∧
      r.attempt_number = maxA) ∧
    (∀ (ex₀ : Nat → String → SQLExecutionResult)
        (corr₁ corr₂ : List CorrectionAttempt → String → Option String → Nat → String)
        (init₀ : String),
        generate_with_correction 1 ex₀ corr₁ init₀ =
          generate_with_correction 1 ex₀ corr₂ init₀ ∧
        (generate_with_correction 1 ex₀ corr₁ init₀).2.2.length = 1) := by
  have hmain := correctionLoopAux_all_fail maxA ex corr hfail
    maxA 1 init [] (by omega) (by omega) hmax
  refine ⟨hmain.1, ?_, ?_, hmain.2.2.2, ?_⟩
  · have := hmain.2.1
    simpa [generate_with_correction] using this
  · intro r hr
    rcases hmain.2.2.1 r hr with h | h
    · simp at h
    · exact h
  · intro ex₀ corr₁ corr₂ init₀
    by_cases h : (ex₀ 1 init₀).success
    · constructor
      · simp only [generate_with_correction, correctionLoopAux, h, if_true]
      · simp only [generate_with_correction, correctionLoopAux, h, if_true]
        simp
    · simp only [Bool.not_eq_true] at h
      constructor
      · simp only [generate_with_correction, correctionLoopAux, h,
          Bool.false_eq_true, if_false]
        simp
      · simp only [generate_with_correction, correctionLoopAux, h,
          Bool.false_eq_true, if_false]
        simp

/-- Witness for C2: with max_attempts 2 and a scripted execution
capability on which every attempt fails, the loop exhausts its two
attempts and reports failure. -/
theorem generate_with_correction_exhaustion_witness :
    (generate_with_correction 2 scriptAllFail scriptCorrect "SELECT a").2.1 = false ∧
    (generate_with_correction 2 scriptAllFail scriptCorrect "SELECT a").2.2.length = 2 := by
  have h := generate_with_correction_exhaustion 2 scriptAllFail scriptCorrect "SELECT a"
    (by decide) (fun j s h1 h2 => rfl)
  exact ⟨h.1, h.2.1⟩

/-- C3: for every query string executed by execute_sql against a
configured database, whatever the statement semantics and whether it
succeeds or raises, the database state after the call equals the state
before it: the statement runs inside a transaction that is rolled back
on every exit path, so no persisted effect survives. -/
theorem execute_sql_rollback_invariant {DB : Type} (stg : SettingsModel)
    (runStmt : String → DB → Except PyError (DB × Nat))
    (elapsed : ℚ) (db : DB) (q : String) :
    (execute_sql stg runStmt elapsed db q).1 = db := by
  unfold execute_sql
  split
  · rfl
  · unfold beginTransaction
    cases h : runStmt q db with
    | ok v => simp [h]
    | error e => simp [h]

/-- C5: execute_sql never raises past its boundary: whenever the engine
raises an exception, the result has succeeded = false, the
engine-reported message text in error_message, the query text and the
attempt's latency recorded, and the database state unchanged. -/
theorem execute_sql_failure_is_data {DB : Type} (stg : SettingsModel)
    (runStmt : String → DB → Except PyError (DB × Nat))
    (elapsed : ℚ) (db : DB) (q : String) (e : PyError)
    (hcfg : noDbConfigured stg = false)
    (herr : runStmt q db = Except.error e) :
    (execute_sql stg runStmt elapsed db q).2.success = false ∧
    (execute_sql stg runStmt elapsed db q).2.error_message = some (errMsgOf e) ∧
    (execute_sql stg runStmt elapsed db q).2.sql_query = q ∧
    (execute_sql stg runStmt elapsed db q).2.execution_time_ms = some elapsed ∧
    (execute_sql stg runStmt elapsed db q).1 = db := by
  simp [execute_sql, beginTransaction, hcfg, herr]

/-- Witness for C5: a SQLAlchemyError wrapping a driver syntax error is
returned as data, with the driver message text and the latency. -/
theorem execute_sql_failure_is_data_witness :
    noDbConfigured ⟨some "postgresql://localhost/db"⟩ = false ∧
    (execute_sql ⟨some "postgresql://localhost/db"⟩ demoRaise 5 () "SELEC * FROM users").2.success = false ∧
    (execute_sql ⟨some "postgresql://localhost/db"⟩ demoRaise 5 () "SELEC * FROM users").2.error_message =
      some "syntax error at or near SELEC" ∧
    (execute_sql ⟨some "postgresql://localhost/db"⟩ demoRaise 5 () "SELEC * FROM users").2.execution_time_ms = some 5 := by
  have h := execute_sql_failure_is_data ⟨some "postgresql://localhost/db"⟩
    demoRaise 5 () "SELEC * FROM users"
    ⟨true, some "syntax error at or near SELEC", "(psycopg2.errors.SyntaxError)"⟩
    (by decide) rfl
  exact ⟨by decide, h.1, by rw [h.2.1]; rfl, h.2.2.2.1⟩

/-- Counterexample to C4 as stated: with no database configured,
execute_sql reports the message "No database configured for SQL
execution", not the claimed distinguished text, and the correction loop
does not recognize the configuration error: with max_attempts = 2 it
spends both attempts on it (history length 2 instead of stopping after
one). -/
theorem no_config_counterexample :
    (execute_sql noDbSettings demoRun 0 () "SELECT 1").2.error_message ≠
      some "no database configured" ∧
    (execute_sql noDbSettings demoRun 0 () "SELECT 1").2.error_message =
      some "No database configured for SQL execution" ∧
    (generate_with_correction 2 noDbExec scriptCorrect "SELECT 1").2.2.length = 2 := by
  refine ⟨by decide, by decide, rfl⟩

/-- C4 as amended: when no database connection is configured,
execute_sql returns succeeded = false with the distinguished message
"No database configured for SQL execution" without raising; the
correction loop does not treat this configuration error specially and
retries until max_attempts is exhausted, every attempt failing with
that same message, while still returning a well-formed
(sql, false, history) result of length max_attempts instead of
aborting the request. -/
theorem execute_sql_no_config_loop {DB : Type} (stg : SettingsModel)
    (runStmt : String → DB → Except PyError (DB × Nat))
    (elapsed : ℚ) (db : DB)
    (corr : List CorrectionAttempt → String → Option String → Nat → String)
    (init : String) (maxA : Nat)
    (hcfg : noDbConfigured stg = true) (hmax : 1 ≤ maxA) :
    (∀ q, (execute_sql stg runStmt elapsed db q).2 =
      ⟨false, q, some "No database configured for SQL execution", none, none⟩) ∧
    (generate_with_correction maxA
      (fun _ s => (execute_sql stg runStmt elapsed db s).2) corr init).2.1 = false ∧
    (generate_with_correction maxA
      (fun _ s => (execute_sql stg runStmt elapsed db s).2) corr init).2.2.length = maxA ∧
    (∀ r ∈ (generate_with_correction maxA
        (fun _ s => (execute_sql stg runStmt elapsed db s).2) corr init).2.2,
      r.success = false ∧
      r.error_message = some "No database configured for SQL execution") := by
  have hres : ∀ q, (execute_sql stg runStmt elapsed db q).2 =
      ⟨false, q, some "No database configured for SQL execution", none, none⟩ := by
    intro q
    simp [execute_sql, hcfg]
  have hfail : ∀ j s, 1 ≤ j → j ≤ maxA →
      ((fun _ s => (execute_sql stg runStmt elapsed db s).2) j s).success = false := by
    intro j s _ _
    show (execute_sql stg runStmt elapsed db s).2.success = false
    rw [hres s]
  have hmain := correctionLoopAux_all_fail maxA
    (fun _ s => (execute_sql stg runStmt elapsed db s).2) corr hfail
    maxA 1 init [] (by omega) (by omega) hmax
  have hshape := correctionLoopAux_record_shape maxA
    (fun _ s => (execute_sql stg runStmt elapsed db s).2) corr
    maxA 1 init []
  refine ⟨hres, hmain.1, ?_, ?_⟩
  · have := hmain.2.1
    simpa [generate_with_correction] using this
  · intro r hr
    rcases hshape r hr with h | h
    · simp at h
    · obtain ⟨j, s, hmsg, hsucc⟩ := h
      rw [hres s] at hmsg hsucc
      exact ⟨hsucc, hmsg⟩

/-- Witness for C4 as amended: with three attempts allowed and no
database configured, the loop spends all three attempts and reports
failure. -/
theorem execute_sql_no_config_loop_witness :
    (generate_with_correction 3 noDbExec scriptCorrect "SELECT 2").2.1 = false ∧
    (generate_with_correction 3 noDbExec scriptCorrect "SELECT 2").2.2.length = 3 := by
  have h := execute_sql_no_config_loop noDbSettings demoRun 0 ()
    scriptCorrect "SELECT 2" 3 rfl (by decide)
  exact ⟨h.2.1, h.2.2.1⟩

/-- C9 is a code bug: the safety check does not detect every mutating
statement. The pattern \bUPDATE\s+SET\b only matches UPDATE immediately
followed by SET, so the well-formed mutating statement
"UPDATE users SET age = 30" passes is_safe_query as safe, against the
stated intent of blocking mutating statements. The other disallowed
kinds listed by the claim are detected, including the degenerate
adjacent form "UPDATE SET". -/
theorem is_safe_query_update_bug :
    (is_safe_query "UPDATE users SET age = 30").1 = true ∧
    (is_safe_query "DROP TABLE users").1 = false ∧
    (is_safe_query "DELETE FROM users").1 = false ∧
    (is_safe_query "TRUNCATE TABLE users").1 = false ∧
    (is_safe_query "INSERT INTO users VALUES (1)").1 = false ∧
    (is_safe_query "ALTER TABLE users ADD COLUMN x INT").1 = false ∧
    (is_safe_query "CREATE TABLE users (id INT)").1 = false ∧
    (is_safe_query "GRANT ALL ON users TO admin").1 = false ∧
    (is_safe_query "REVOKE ALL ON users FROM admin").1 = false ∧
    (is_safe_query "UPDATE SET").1 = false ∧
    (is_safe_query "SELECT * FROM users WHERE age > 25").1 = true := by
  decide

/-- Counterexample to C6 as stated: indexing a schema from which no
CREATE TABLE statement parses does not replace the active index with
the (empty) chunk set of that schema — the previous generation's users
entry is still queryable afterwards. -/
theorem index_replace_counterexample :
    parse_schema_to_chunks "" = [] ∧
    get_all_table_names (index_schema usersIndexed "") = ["users"] := by
  exact ⟨rfl, rfl⟩

/-- C6 as amended: whenever at least one table parses from s,
index_schema(s) fully replaces the active index: afterwards the
queryable entries are exactly the chunks parsed from s (one per parsed
table, a single generation, so no mixed-generation state is ever
queryable), the loaded flag is set and the queryable table names are
exactly those of s; when no table parses, the previous index is kept
unchanged (see the companion no-op theorem). -/
theorem index_schema_replaces (st : SchemaRAGState) (s : String)
    (h : parse_schema_to_chunks s ≠ []) :
    (index_schema st s).vectorstore = some (parse_schema_to_chunks s) ∧
    (index_schema st s).schema_loaded = true ∧
    get_all_table_names (index_schema st s) =
      (parse_schema_to_chunks s).map (fun d => d.table_name) := by
  cases hp : parse_schema_to_chunks s with
  | nil => exact absurd hp h
  | cons a l =>
    refine ⟨?_, ?_, ?_⟩ <;>
      simp [index_schema, hp, get_all_table_names, Chroma_from_documents]

/-- Witness for the amended C6: re-indexing the users state with an
orders schema leaves exactly the orders table queryable. -/
theorem index_schema_replaces_witness :
    parse_schema_to_chunks "CREATE TABLE orders (id INT);" ≠ [] ∧
    get_all_table_names (index_schema usersIndexed "CREATE TABLE orders (id INT);") =
      ["orders"] := by
  have h := index_schema_replaces usersIndexed "CREATE TABLE orders (id INT);"
    (by decide)
  exact ⟨by decide, by rw [h.2.2]; rfl⟩

/-- C7: retrieval returns at most top_k entries, ordered by
non-increasing similarity score, each scoring at least the threshold;
when nothing is indexed, and in particular after clear_index, the
result is the empty string rather than a raised error. -/
theorem retrieve_relevant_schema_contract
    (score : String → SchemaDocument → ℚ) (st : SchemaRAGState)
    (q : String) (k : Nat) (t : ℚ) :
    (retrieve_relevant_docs score st q k t).length ≤ k ∧
    (retrieve_relevant_docs score st q k t).Pairwise (fun a b => b.2 ≤ a.2) ∧
    (∀ p ∈ retrieve_relevant_docs score st q k t, t ≤ p.2) ∧
    (st.schema_loaded = false ∨ st.vectorstore = none →
      retrieve_relevant_docs score st q k t = [] ∧
      retrieve_relevant_schema score st q k t = "") ∧
    (∀ st' : SchemaRAGState,
      retrieve_relevant_schema score (clear_index st') q k t = "") := by
  obtain ⟨vs, loaded⟩ := st
  refine ⟨?_, ?_, ?_, ?_, ?_⟩
  · cases vs with
    | none => simp [retrieve_relevant_docs]
    | some store =>
      cases loaded with
      | false => simp [retrieve_relevant_docs]
      | true =>
        have h1 : retrieve_relevant_docs score ⟨some store, true⟩ q k t =
            (similarity_search_with_score score store q k).filter
              (fun p => decide (t ≤ p.2)) := rfl
        rw [h1]
        refine le_trans (List.length_filter_le _ _) ?_
        exact List.length_take_le _ _
  · cases vs with
    | none => simp [retrieve_relevant_docs]
    | some store =>
      cases loaded with
      | false => simp [retrieve_relevant_docs]
      | true =>
        have h1 : retrieve_relevant_docs score ⟨some store, true⟩ q k t =
            (similarity_search_with_score score store q k).filter
              (fun p => decide (t ≤ p.2)) := rfl
        rw [h1]
        exact List.Pairwise.sublist (List.filter_sublist _)
          (List.Pairwise.sublist (List.take_sublist _ _) (pairwise_sortDesc _))
  · cases vs with
    | none => simp [retrieve_relevant_docs]
    | some store =>
      cases loaded with
      | false => simp [retrieve_relevant_docs]
      | true =>
        have h1 : retrieve_relevant_docs score ⟨some store, true⟩ q k t =
            (similarity_search_with_score score store q k).filter
              (fun p => decide (t ≤ p.2)) := rfl
        rw [h1]
        intro p hp
        exact of_decide_eq_true (List.mem_filter.mp hp).2
  · intro hcase
    cases vs with
    | none =>
      cases loaded with
      | false => exact ⟨rfl, rfl⟩
      | true => exact ⟨rfl, rfl⟩
    | some store =>
      cases loaded with
      | false => exact ⟨rfl, rfl⟩
      | true =>
        rcases hcase with hc | hc <;> simp at hc
  · intro st'
    obtain ⟨vs', loaded'⟩ := st'
    cases vs' with
    | none =>
      cases loaded' with
      | false => rfl
      | true => rfl
    | some store => rfl

/-- C10: if index_schema is called with a schema from which no CREATE
TABLE statement can be parsed, it returns without modifying any index
state: the state is unchanged, so every subsequent retrieval and table
listing behaves exactly as before and the old index stays active. -/
theorem index_schema_noop_on_unparseable (st : SchemaRAGState) (s : String)
    (h : parse_schema_to_chunks s = []) :
    index_schema st s = st ∧
    (∀ score q k t, retrieve_relevant_schema score (index_schema st s) q k t =
      retrieve_relevant_schema score st q k t) ∧
    get_all_table_names (index_schema st s) = get_all_table_names st := by
  have h1 : index_schema st s = st := by simp [index_schema, h]
  exact ⟨h1, fun score q k t => by rw [h1], by rw [h1]⟩

/-- Witness for C10: a schema with no parseable table leaves the users
index untouched. -/
theorem index_schema_noop_on_unparseable_witness :
    parse_schema_to_chunks "not a schema" = [] ∧
    index_schema usersIndexed "not a schema" = usersIndexed := by
  exact ⟨rfl, (index_schema_noop_on_unparseable usersIndexed "not a schema" rfl).1⟩

/-- C8: for a well-formed DDL schema containing n CREATE TABLE
statements T1..Tn (rendered canonically from table descriptions),
parse_schema_to_chunks returns exactly n chunks in statement order, one
per table with the matching table name and the columns in declaration
order, and re-parsing each chunk's stored full_definition yields the
very same chunk — in particular the same table name and the same column
name set (round-trip stability). -/
theorem parse_schema_to_chunks_roundtrip (ts : List TableSpec)
    (hWF : ∀ t ∈ ts, WFTableB t = true) :
    parse_schema_to_chunks (String.mk (renderSchema ts)) =
      ts.map (fun t => mkDocument t.tname (renderBody t.tcols)) ∧
    (parse_schema_to_chunks (String.mk (renderSchema ts))).length = ts.length ∧
    (∀ t ∈ ts,
      (mkDocument t.tname (renderBody t.tcols)).table_name = String.mk t.tname ∧
      (mkDocument t.tname (renderBody t.tcols)).columns =
        t.tcols.map (fun c => String.mk c.cname)) ∧
    (∀ t ∈ ts,
      parse_schema_to_chunks
          (mkDocument t.tname (renderBody t.tcols)).full_definition =
        [mkDocument t.tname (renderBody t.tcols)]) := by
  have hparse : parse_schema_to_chunks (String.mk (renderSchema ts)) =
      ts.map (fun t => mkDocument t.tname (renderBody t.tcols)) := by
    unfold parse_schema_to_chunks
    rw [show (String.mk (renderSchema ts)).toList = renderSchema ts from rfl,
      scanTables_renderSchema ts hWF, List.map_map]
    rfl
  refine ⟨hparse, ?_, ?_, ?_⟩
  · rw [hparse]
    simp
  · intro t ht
    obtain ⟨_, _, hcols⟩ := WFTableB_spec (hWF t ht)
    refine ⟨rfl, ?_⟩
    show (parseColumnsOfBody (renderBody t.tcols)).map (fun c => c.name) =
      t.tcols.map (fun c => String.mk c.cname)
    rw [parseColumnsOfBody_render t.tcols hcols, List.map_map]
    rfl
  · intro t ht
    have hWFt := hWF t ht
    have hfull : (mkDocument t.tname (renderBody t.tcols)).full_definition.toList =
        renderTable t := by
      show ("CREATE TABLE " ++ String.mk t.tname ++ " (" ++
        String.mk (renderBody t.tcols) ++ ");").toList = renderTable t
      rw [str_toList_append, str_toList_append, str_toList_append,
        str_toList_append]
      rw [show ("CREATE TABLE ").toList = createTablePat ++ [' '] from rfl,
        show (String.mk t.tname).toList = t.tname from rfl,
        show (" (").toList = [' ', '('] from rfl,
        show (String.mk (renderBody t.tcols)).toList = renderBody t.tcols from rfl,
        show (");").toList = [')', ';'] from rfl]
      unfold renderTable
      simp [List.append_assoc]
    show (scanTables
        ((mkDocument t.tname (renderBody t.tcols)).full_definition.toList)).map
        (fun nb => mkDocument nb.1 nb.2) =
      [mkDocument t.tname (renderBody t.tcols)]
    rw [hfull, show renderTable t = renderTable t ++ [] from
      (List.append_nil _).symm, scanTables_table hWFt []]
    rfl

/-- Witness for C8: the canonical two-table schema with a sized VARCHAR
column parses into exactly its two tables, names in order. -/
theorem parse_schema_to_chunks_roundtrip_witness :
    (∀ t ∈ wsTables, WFTableB t = true) ∧
    (parse_schema_to_chunks (String.mk (renderSchema wsTables))).length = 2 ∧
    (parse_schema_to_chunks (String.mk (renderSchema wsTables))).map
      (fun d => d.table_name) = ["users", "orders"] := by
  have h := parse_schema_to_chunks_roundtrip wsTables (by decide)
  refine ⟨by decide, ?_, ?_⟩
  · rw [h.2.1]
    rfl
  · rw [h.1]
    rfl

end QueryScribe
